import Mathlib

/-!
Shallow embedding of the weekly study-time allocator of
`src/utils/schedulingAlgorithm.js` (class `SchedulingEngine`).

Modelling conventions:
* Calendar dates are day numbers (`Int`); `format(addDays(start, i), "yyyy-MM-dd")`
  is injective on dates, so adding `i` to the day number is a faithful model of
  the string keys used by the source.
* Minutes are `Int` (JavaScript numbers restricted to integers, which is what
  every caller supplies).
* The mutable `sessionTimeUsed` object is threaded explicitly as a total map
  `Int → Int` (dates not initialised by the source are never read inside
  `generateWeeklySchedule`; `rescheduleMissedSession` reads them with `|| 0`,
  which a total map defaulting to 0 reproduces).
* `Date.now()` is modelled as an explicit `now : Nat` argument; it is used only
  to build session identity strings, exactly as in the source.
* JavaScript's `x || 240` on the optional `estimatedTime` field is `jsOr`.
-/

namespace StudyPlanner

inductive SessionType where
  | homework
  | examRevision
  deriving DecidableEq

inductive SessionStatus where
  | planned
  | completed
  | missed
  | rescheduled
  deriving DecidableEq

structure Task where
  id : String
  name : String
  subject : String
  deadline : Int
  estimatedTime : Int
  deriving DecidableEq

structure Exam where
  id : String
  subject : String
  date : Int
  estimatedTime : Option Int
  deriving DecidableEq

structure Session where
  id : String
  type : SessionType
  taskId : Option String
  examId : Option String
  title : String
  subject : String
  date : Int
  duration : Int
  status : SessionStatus
  deriving DecidableEq

structure DailyBucket where
  date : Int
  sessions : List Session
  totalMinutes : Int
  deriving DecidableEq

structure ShortfallItem where
  id : String
  name : String
  type : SessionType
  missingMinutes : Int
  deriving DecidableEq

structure ValidationDetails where
  allTasksScheduled : Bool
  noDeadlineViolations : Bool
  examDistribution : Bool
  studySessionLimitRespected : Bool
  deriving DecidableEq

structure ValidationReport where
  isValid : Bool
  details : ValidationDetails
  unscheduledItems : List ShortfallItem
  deriving DecidableEq

/-- `sessionTimeUsed[d] += delta` on the threaded capacity map. -/
def bump (m : Int → Int) (d delta : Int) : Int → Int :=
  fun x => if x = d then m x + delta else m x

/-- JavaScript `v || dflt` for an optional integer field: an absent field and
the integer 0 are both falsy and replaced by the default. -/
def jsOr (v : Option Int) (dflt : Int) : Int :=
  match v with
  | none => dflt
  | some t => if t = 0 then dflt else t

/-- `Math.ceil(a / b)` on integers (b > 0 in every use). -/
def jsCeilDiv (a b : Int) : Int := -((-a).fdiv b)

/-- `startOfWeek(d, { weekStartsOn: 1 })`: the Monday on or before `d`
(day number 4 = 1970-01-05 is a Monday). -/
def startOfWeek (d : Int) : Int := d - (d + 3) % 7

/-- The candidate day offsets `0 .. min(daysUntilDeadline, 6)` of the
task-allocation loop; empty when the deadline precedes the window start. -/
def taskDays (daysUntilDeadline : Int) : List Nat :=
  if daysUntilDeadline < 0 then []
  else List.range ((min daysUntilDeadline 6).toNat + 1)

/-- The homework session object pushed by `scheduleTask` (source lines 92-101). -/
def taskSession (task : Task) (now : Nat) (day : Nat) (date dur : Int) : Session :=
  { id := "task-" ++ task.id ++ "-" ++ toString day ++ "-" ++ toString now
    type := .homework
    taskId := some task.id
    examId := none
    title := task.name
    subject := task.subject
    date := date
    duration := dur
    status := .planned }

/-- The revision session object pushed by pass 1 of `distributeExamRevision`
(source lines 147-156). -/
def examSession1 (exam : Exam) (now : Nat) (day : Nat) (date dur : Int) : Session :=
  { id := "exam-" ++ exam.id ++ "-" ++ toString day ++ "-" ++ toString now
    type := .examRevision
    taskId := none
    examId := some exam.id
    title := exam.subject ++ " Revision"
    subject := exam.subject
    date := date
    duration := dur
    status := .planned }

/-- The revision session object pushed by pass 2 of `distributeExamRevision`
(source lines 177-186). -/
def examSession2 (exam : Exam) (now : Nat) (day : Nat) (date dur : Int) : Session :=
  { id := "exam-" ++ exam.id ++ "-" ++ toString day ++ "-extra-" ++ toString now
    type := .examRevision
    taskId := none
    examId := some exam.id
    title := exam.subject ++ " Revision"
    subject := exam.subject
    date := date
    duration := dur
    status := .planned }

/-- The session object pushed by `rescheduleMissedSession` (source lines
220-226): a copy of the missed session with fresh identity, date, duration
and status. -/
def rescheduledSession (missedSession : Session) (now : Nat) (day : Nat)
    (date dur : Int) : Session :=
  { missedSession with
    id := missedSession.id ++ "-rescheduled-" ++ toString day ++ "-" ++ toString now
    date := date
    duration := dur
    status := .rescheduled }

/-- Loop body of `scheduleTask` (source lines 82-105): greedy fill over the
candidate days, threading `remaining` and the capacity map. -/
def scheduleTaskGo (task : Task) (weekStart : Int) (limit : Int) (now : Nat) :
    List Nat → Int → (Int → Int) → List Session × (Int → Int)
  | [], _, used => ([], used)
  | day :: rest, remaining, used =>
    let currentDay := weekStart + (day : Int)
    let free := limit - used currentDay
    if 0 < free then
      let timeToAssign := min remaining free
      let used1 := bump used currentDay timeToAssign
      let remaining1 := remaining - timeToAssign
      let s : Session := taskSession task now day currentDay timeToAssign
      if remaining1 ≤ 0 then ([s], used1)
      else
        let r := scheduleTaskGo task weekStart limit now rest remaining1 used1
        (s :: r.1, r.2)
    else
      if remaining ≤ 0 then ([], used)
      else scheduleTaskGo task weekStart limit now rest remaining used

/-- `SchedulingEngine.scheduleTask` (source lines 75-114). -/
def scheduleTask (task : Task) (weekStart : Int) (limit : Int) (now : Nat)
    (used : Int → Int) : List Session × (Int → Int) :=
  scheduleTaskGo task weekStart limit now
    (taskDays (task.deadline - weekStart)) task.estimatedTime used

/-- Pass 1 of `distributeExamRevision` (source lines 131-161): even
distribution capped by the ideal daily share.  Returns the produced sessions,
the updated capacity map and the minutes still remaining. -/
def pass1Go (exam : Exam) (weekStart : Int) (limit : Int) (idealDailyShare : Int)
    (now : Nat) :
    List Nat → Int → (Int → Int) → List Session × (Int → Int) × Int
  | [], remaining, used => ([], used, remaining)
  | day :: rest, remaining, used =>
    let currentDay := weekStart + (day : Int)
    let free := limit - used currentDay
    if 0 < free then
      let timeToAssign := min remaining (min free idealDailyShare)
      if 0 < timeToAssign then
        let used1 := bump used currentDay timeToAssign
        let remaining1 := remaining - timeToAssign
        let s : Session := examSession1 exam now day currentDay timeToAssign
        if remaining1 ≤ 0 then ([s], used1, remaining1)
        else
          let r := pass1Go exam weekStart limit idealDailyShare now rest remaining1 used1
          (s :: r.1, r.2.1, r.2.2)
      else
        if remaining ≤ 0 then ([], used, remaining)
        else pass1Go exam weekStart limit idealDailyShare now rest remaining used
    else
      if remaining ≤ 0 then ([], used, remaining)
      else pass1Go exam weekStart limit idealDailyShare now rest remaining used

/-- `sessions.find(s => s.date === currentDay)` followed by
`existingSession.duration += timeToAssign`: add `delta` to the duration of the
first session dated `d`. -/
def updateFirstByDate : List Session → Int → Int → List Session
  | [], _, _ => []
  | s :: rest, d, delta =>
    if s.date = d then { s with duration := s.duration + delta } :: rest
    else s :: updateFirstByDate rest d delta

/-- Pass 2 of `distributeExamRevision` (source lines 164-194): leftover fill,
merging into an existing session for the day when one exists. -/
def pass2Go (exam : Exam) (weekStart : Int) (limit : Int) (now : Nat) :
    List Nat → List Session → Int → (Int → Int) → List Session × (Int → Int)
  | [], sessions, _, used => (sessions, used)
  | day :: rest, sessions, remaining, used =>
    let currentDay := weekStart + (day : Int)
    let free := limit - used currentDay
    if 0 < free then
      let timeToAssign := min remaining free
      let sessions1 :=
        if sessions.any (fun s => s.date = currentDay) then
          updateFirstByDate sessions currentDay timeToAssign
        else
          sessions ++ [examSession2 exam now day currentDay timeToAssign]
      let used1 := bump used currentDay timeToAssign
      let remaining1 := remaining - timeToAssign
      if remaining1 ≤ 0 then (sessions1, used1)
      else pass2Go exam weekStart limit now rest sessions1 remaining1 used1
    else
      if remaining ≤ 0 then (sessions, used)
      else pass2Go exam weekStart limit now rest sessions remaining used

/-- `SchedulingEngine.distributeExamRevision` (source lines 120-197). -/
def distributeExamRevision (exam : Exam) (weekStart : Int) (limit : Int)
    (now : Nat) (used : Int → Int) : List Session × (Int → Int) :=
  let daysUntilExam := exam.date - weekStart
  if daysUntilExam < 0 then ([], used)
  else
    let remainingMinutes := jsOr exam.estimatedTime 240
    let daysToUse := min (max daysUntilExam 3) 7
    let idealDailyShare := jsCeilDiv remainingMinutes daysToUse
    let r1 := pass1Go exam weekStart limit idealDailyShare now
      (List.range daysToUse.toNat) remainingMinutes used
    if 0 < r1.2.2 then
      pass2Go exam weekStart limit now (List.range daysToUse.toNat) r1.1 r1.2.2 r1.2.1
    else
      (r1.1, r1.2.1)

/-- `SchedulingEngine.calculateSessionTimeUsed` (source lines 244-253). -/
def calculateSessionTimeUsed (sessions : List Session) : Int → Int :=
  sessions.foldl (fun m s => bump m s.date s.duration) (fun _ => 0)

/-- Loop body of `rescheduleMissedSession` (source lines 208-230). -/
def rescheduleGo (missedSession : Session) (currentDate : Int) (limit : Int)
    (now : Nat) : List Nat → Int → (Int → Int) → List Session
  | [], _, _ => []
  | day :: rest, remaining, used =>
    let targetDate := currentDate + (day : Int)
    let free := limit - used targetDate
    if 0 < free then
      let timeToAssign := min remaining free
      let used1 := bump used targetDate timeToAssign
      let remaining1 := remaining - timeToAssign
      let s : Session := rescheduledSession missedSession now day targetDate timeToAssign
      if remaining1 ≤ 0 then [s]
      else s :: rescheduleGo missedSession currentDate limit now rest remaining1 used1
    else
      if remaining ≤ 0 then []
      else rescheduleGo missedSession currentDate limit now rest remaining used

/-- `SchedulingEngine.rescheduleMissedSession` (source lines 203-239). -/
def rescheduleMissedSession (missedSession : Session) (currentDate : Int)
    (limit : Int) (now : Nat) (existingSessions : List Session) : List Session :=
  rescheduleGo missedSession currentDate limit now [1, 2, 3]
    missedSession.duration (calculateSessionTimeUsed existingSessions)

/-- `SchedulingEngine.formatSchedule` (source lines 258-273). -/
def formatSchedule (sessions : List Session) (weekStart : Int) : List DailyBucket :=
  (List.range 7).map (fun (i : Nat) =>
    let date := weekStart + (i : Int)
    { date := date
      sessions := sessions.filter (fun s => s.date = date)
      totalMinutes :=
        ((sessions.filter (fun s => s.date = date)).map (fun s => s.duration)).sum })

/-- `SchedulingEngine.sortTasksByDeadline` (source lines 63-69): JavaScript's
stable ascending sort under comparator `dateA - dateB` is insertion sort by
`deadline ≤`. -/
def sortTasksByDeadline (tasks : List Task) : List Task :=
  tasks.insertionSort (fun a b => a.deadline ≤ b.deadline)

/-- One iteration of the task loop of `generateWeeklySchedule` (source lines
40-45): run `scheduleTask` against the shared capacity map and append the
produced sessions (appending the empty list when none were produced). -/
def taskStep (start limit : Int) (now : Nat)
    (acc : List Session × (Int → Int)) (task : Task) : List Session × (Int → Int) :=
  let r := scheduleTask task start limit now acc.2
  (acc.1 ++ r.1, r.2)

/-- One iteration of the exam loop of `generateWeeklySchedule` (source lines
48-55). -/
def examStep (start limit : Int) (now : Nat)
    (acc : List Session × (Int → Int)) (exam : Exam) : List Session × (Int → Int) :=
  let r := distributeExamRevision exam start limit now acc.2
  (acc.1 ++ r.1, r.2)

/-- `SchedulingEngine.generateWeeklySchedule` (source lines 26-58). -/
def generateWeeklySchedule (tasks : List Task) (exams : List Exam) (limit : Int)
    (startDate : Int) (now : Nat) : List DailyBucket :=
  let start := startOfWeek startDate
  let used0 : Int → Int := fun _ => 0
  let afterTasks :=
    (sortTasksByDeadline tasks).foldl (taskStep start limit now)
      (([] : List Session), used0)
  let afterExams := exams.foldl (examStep start limit now) afterTasks
  formatSchedule afterExams.1 start

/-- `Object.values(schedule).flatMap(day => day.sessions)`. -/
def allSessions (schedule : List DailyBucket) : List Session :=
  (schedule.map (fun day => day.sessions)).flatten

/-- Minutes scheduled for a task: sessions with `s.taskId === task.id`. -/
def scheduledMinutesForTask (sessions : List Session) (taskId : String) : Int :=
  ((sessions.filter (fun s => s.taskId = some taskId)).map (fun s => s.duration)).sum

/-- Minutes scheduled for an exam: sessions with `s.examId === exam.id`. -/
def scheduledMinutesForExam (sessions : List Session) (examId : String) : Int :=
  ((sessions.filter (fun s => s.examId = some examId)).map (fun s => s.duration)).sum

/-- `SchedulingEngine.validateSchedule` (source lines 278-343). -/
def validateSchedule (tasks : List Task) (exams : List Exam) (limit : Int)
    (schedule : List DailyBucket) : ValidationReport :=
  let sessions := allSessions schedule
  let taskShortfalls := tasks.filterMap (fun task =>
    let scheduled := scheduledMinutesForTask sessions task.id
    if scheduled < task.estimatedTime then
      some { id := task.id, name := task.name, type := .homework
             missingMinutes := task.estimatedTime - scheduled }
    else none)
  let examShortfalls := exams.filterMap (fun exam =>
    let scheduled := scheduledMinutesForExam sessions exam.id
    let totalNeeded := jsOr exam.estimatedTime 240
    if scheduled < totalNeeded then
      some { id := exam.id, name := exam.subject, type := .examRevision
             missingMinutes := totalNeeded - scheduled }
    else none)
  let unscheduledItems := taskShortfalls ++ examShortfalls
  let details : ValidationDetails :=
    { allTasksScheduled := unscheduledItems.isEmpty
      noDeadlineViolations := tasks.all (fun task =>
        let taskSessions := sessions.filter (fun s => s.taskId = some task.id)
        if taskSessions.isEmpty then false
        else taskSessions.all (fun s =>
          decide (s.date < task.deadline) || decide (s.date = task.deadline)))
      examDistribution := exams.all (fun exam =>
        decide (3 ≤ (sessions.filter (fun s => s.examId = some exam.id)).length))
      studySessionLimitRespected := schedule.all (fun day =>
        decide (day.totalMinutes ≤ limit)) }
  { isValid := details.allTasksScheduled && details.noDeadlineViolations &&
      details.examDistribution && details.studySessionLimitRespected
    details := details
    unscheduledItems := unscheduledItems }

/-- Sum of sessions' durations. -/
def sumDur (ss : List Session) : Int := (ss.map (fun s => s.duration)).sum

/-- Sum of durations of the sessions dated `d`. -/
def sumDurAt (d : Int) (ss : List Session) : Int :=
  sumDur (ss.filter (fun s => s.date = d))

/-- A session with its identity erased: the part of a session that must not
depend on the wall clock. -/
def stripId (s : Session) : Session := { s with id := "" }

/-- The `(date, sourceId, duration)` triple of a session. -/
def tripleOf (s : Session) : Int × String × Int :=
  (s.date, (match s.taskId with
            | some i => i
            | none => s.examId.getD ""), s.duration)

/-! ## Helper lemmas -/

lemma bump_apply (m : Int → Int) (d delta x : Int) :
    bump m d delta x = if x = d then m x + delta else m x := rfl

lemma sumDur_nil : sumDur [] = 0 := rfl

lemma sumDur_cons (s : Session) (ss : List Session) :
    sumDur (s :: ss) = s.duration + sumDur ss := by
  simp [sumDur]

lemma sumDur_append (l1 l2 : List Session) :
    sumDur (l1 ++ l2) = sumDur l1 + sumDur l2 := by
  simp [sumDur]

lemma sumDurAt_nil (d : Int) : sumDurAt d [] = 0 := rfl

lemma sumDurAt_cons (d : Int) (s : Session) (ss : List Session) :
    sumDurAt d (s :: ss) = (if s.date = d then s.duration else 0) + sumDurAt d ss := by
  by_cases h : s.date = d <;>
    simp [sumDurAt, sumDur, List.filter_cons, h]

lemma sumDurAt_append (d : Int) (l1 l2 : List Session) :
    sumDurAt d (l1 ++ l2) = sumDurAt d l1 + sumDurAt d l2 := by
  simp [sumDurAt, sumDur, List.filter_append]

/-! ## Capacity invariant: the committed minutes of a day never exceed the
budget, for every loop of the engine (given they start that way). -/

lemma bump_le (u : Int → Int) (lim d0 delta : Int)
    (hu : ∀ d, u d ≤ lim) (hdelta : delta ≤ lim - u d0) :
    ∀ d, bump u d0 delta d ≤ lim := by
  intro d
  by_cases hd : d = d0
  · subst hd
    have h1 : bump u d delta d = u d + delta := by simp [bump_apply]
    rw [h1]; linarith [hu d]
  · simp only [bump_apply, if_neg hd]; exact hu d

lemma scheduleTaskGo_used_le (task : Task) (ws lim : Int) (now : Nat)
    (days : List Nat) :
    ∀ (r : Int) (u : Int → Int), (∀ d, u d ≤ lim) →
      ∀ d, (scheduleTaskGo task ws lim now days r u).2 d ≤ lim := by
  induction days with
  | nil => intro r u hu d; simpa [scheduleTaskGo] using hu d
  | cons day rest ih =>
    intro r u hu d
    simp only [scheduleTaskGo]
    split_ifs with hfree hrem hrem
    · exact bump_le u lim _ _ hu (min_le_right _ _) d
    · exact ih _ _ (bump_le u lim _ _ hu (min_le_right _ _)) d
    · exact hu d
    · exact ih _ _ hu d

lemma pass1Go_used_le (exam : Exam) (ws lim ideal : Int) (now : Nat)
    (days : List Nat) :
    ∀ (r : Int) (u : Int → Int), (∀ d, u d ≤ lim) →
      ∀ d, (pass1Go exam ws lim ideal now days r u).2.1 d ≤ lim := by
  induction days with
  | nil => intro r u hu d; simpa [pass1Go] using hu d
  | cons day rest ih =>
    intro r u hu d
    simp only [pass1Go]
    split_ifs with hfree hpos hrem hrem hrem
    · exact bump_le u lim _ _ hu
        (le_trans (min_le_right _ _) (min_le_left _ _)) d
    · exact ih _ _ (bump_le u lim _ _ hu
        (le_trans (min_le_right _ _) (min_le_left _ _))) d
    · exact hu d
    · exact ih _ _ hu d
    · exact hu d
    · exact ih _ _ hu d

lemma pass2Go_used_le (exam : Exam) (ws lim : Int) (now : Nat)
    (days : List Nat) :
    ∀ (ss : List Session) (r : Int) (u : Int → Int), (∀ d, u d ≤ lim) →
      ∀ d, (pass2Go exam ws lim now days ss r u).2 d ≤ lim := by
  induction days with
  | nil => intro ss r u hu d; simpa [pass2Go] using hu d
  | cons day rest ih =>
    intro ss r u hu d
    simp only [pass2Go]
    by_cases hfree : 0 < lim - u (ws + (day : Int))
    · rw [if_pos hfree]
      have hb := bump_le u lim (ws + (day : Int)) _ hu
        (min_le_right r (lim - u (ws + (day : Int))))
      by_cases hrem : r - min r (lim - u (ws + (day : Int))) ≤ 0
      · rw [if_pos hrem]; exact hb d
      · rw [if_neg hrem]; exact ih _ _ _ hb d
    · rw [if_neg hfree]
      by_cases hrem : r ≤ 0
      · rw [if_pos hrem]; exact hu d
      · rw [if_neg hrem]; exact ih _ _ _ hu d

lemma distributeExamRevision_used_le (exam : Exam) (ws lim : Int) (now : Nat)
    (u : Int → Int) (hu : ∀ d, u d ≤ lim) :
    ∀ d, (distributeExamRevision exam ws lim now u).2 d ≤ lim := by
  intro d
  simp only [distributeExamRevision]
  split_ifs with hpast hleft
  · exact hu d
  · exact pass2Go_used_le exam ws lim now _ _ _ _
      (pass1Go_used_le exam ws lim _ now _ _ _ hu) d
  · exact pass1Go_used_le exam ws lim _ now _ _ _ hu d

lemma scheduleTask_used_le (task : Task) (ws lim : Int) (now : Nat)
    (u : Int → Int) (hu : ∀ d, u d ≤ lim) :
    ∀ d, (scheduleTask task ws lim now u).2 d ≤ lim :=
  scheduleTaskGo_used_le task ws lim now _ _ u hu

lemma foldl_taskStep_used_le (st lim : Int) (now : Nat) (l : List Task) :
    ∀ (acc : List Session × (Int → Int)), (∀ d, acc.2 d ≤ lim) →
      ∀ d, (l.foldl (taskStep st lim now) acc).2 d ≤ lim := by
  induction l with
  | nil => intro acc h d; exact h d
  | cons t rest ih =>
    intro acc h d
    rw [List.foldl_cons]
    exact ih (taskStep st lim now acc t) (fun d => scheduleTask_used_le t st lim now acc.2 h d) d

lemma foldl_examStep_used_le (st lim : Int) (now : Nat) (l : List Exam) :
    ∀ (acc : List Session × (Int → Int)), (∀ d, acc.2 d ≤ lim) →
      ∀ d, (l.foldl (examStep st lim now) acc).2 d ≤ lim := by
  induction l with
  | nil => intro acc h d; exact h d
  | cons e rest ih =>
    intro acc h d
    rw [List.foldl_cons]
    exact ih (examStep st lim now acc e) (fun d => distributeExamRevision_used_le e st lim now acc.2 h d) d

/-! ## Conservation: the minutes a loop adds to a date's sessions equal the
minutes it commits to the capacity map at that date. -/

lemma if_flip (a b x : Int) : (if a = b then x else 0) = (if b = a then x else 0) := by
  by_cases h : a = b
  · rw [if_pos h, if_pos h.symm]
  · rw [if_neg h, if_neg (fun hh => h hh.symm)]

lemma scheduleTaskGo_sumDurAt (task : Task) (ws lim : Int) (now : Nat)
    (days : List Nat) :
    ∀ (r : Int) (u : Int → Int) (d : Int),
      sumDurAt d (scheduleTaskGo task ws lim now days r u).1
        = (scheduleTaskGo task ws lim now days r u).2 d - u d := by
  induction days with
  | nil => intro r u d; simp [scheduleTaskGo, sumDurAt_nil]
  | cons day rest ih =>
    intro r u d
    simp only [scheduleTaskGo]
    set cur := ws + (day : Int) with hcur
    by_cases hfree : 0 < lim - u cur
    · rw [if_pos hfree]
      set a := min r (lim - u cur) with ha
      by_cases hrem : r - a ≤ 0
      · rw [if_pos hrem]
        dsimp only
        rw [sumDurAt_cons, sumDurAt_nil]
        have hdate : (taskSession task now day cur a).date = cur := rfl
        have hdur : (taskSession task now day cur a).duration = a := rfl
        rw [hdate, hdur, if_flip, bump_apply]
        by_cases hd : d = cur
        · rw [if_pos hd, if_pos hd]; omega
        · rw [if_neg hd, if_neg hd]; omega
      · rw [if_neg hrem]
        dsimp only
        rw [sumDurAt_cons, ih]
        have hdate : (taskSession task now day cur a).date = cur := rfl
        have hdur : (taskSession task now day cur a).duration = a := rfl
        rw [hdate, hdur, if_flip, bump_apply]
        by_cases hd : d = cur
        · rw [if_pos hd, if_pos hd]; omega
        · rw [if_neg hd, if_neg hd]; omega
    · rw [if_neg hfree]
      by_cases hrem : r ≤ 0
      · rw [if_pos hrem]; dsimp only; rw [sumDurAt_nil]; omega
      · rw [if_neg hrem]; exact ih _ _ _

lemma pass1Go_sumDurAt (exam : Exam) (ws lim ideal : Int) (now : Nat)
    (days : List Nat) :
    ∀ (r : Int) (u : Int → Int) (d : Int),
      sumDurAt d (pass1Go exam ws lim ideal now days r u).1
        = (pass1Go exam ws lim ideal now days r u).2.1 d - u d := by
  induction days with
  | nil => intro r u d; simp [pass1Go, sumDurAt_nil]
  | cons day rest ih =>
    intro r u d
    simp only [pass1Go]
    set cur := ws + (day : Int) with hcur
    by_cases hfree : 0 < lim - u cur
    · rw [if_pos hfree]
      set a := min r (min (lim - u cur) ideal) with ha
      by_cases hpos : 0 < a
      · rw [if_pos hpos]
        by_cases hrem : r - a ≤ 0
        · rw [if_pos hrem]
          dsimp only
          rw [sumDurAt_cons, sumDurAt_nil]
          have hdate : (examSession1 exam now day cur a).date = cur := rfl
          have hdur : (examSession1 exam now day cur a).duration = a := rfl
          rw [hdate, hdur, if_flip, bump_apply]
          by_cases hd : d = cur
          · rw [if_pos hd, if_pos hd]; omega
          · rw [if_neg hd, if_neg hd]; omega
        · rw [if_neg hrem]
          dsimp only
          rw [sumDurAt_cons, ih]
          have hdate : (examSession1 exam now day cur a).date = cur := rfl
          have hdur : (examSession1 exam now day cur a).duration = a := rfl
          rw [hdate, hdur, if_flip, bump_apply]
          by_cases hd : d = cur
          · rw [if_pos hd, if_pos hd]; omega
          · rw [if_neg hd, if_neg hd]; omega
      · rw [if_neg hpos]
        by_cases hrem : r ≤ 0
        · rw [if_pos hrem]; dsimp only; rw [sumDurAt_nil]; omega
        · rw [if_neg hrem]; exact ih _ _ _
    · rw [if_neg hfree]
      by_cases hrem : r ≤ 0
      · rw [if_pos hrem]; dsimp only; rw [sumDurAt_nil]; omega
      · rw [if_neg hrem]; exact ih _ _ _

lemma updateFirstByDate_sumDurAt_ne (d0 delta d : Int) (hd : d ≠ d0) :
    ∀ ss : List Session,
      sumDurAt d (updateFirstByDate ss d0 delta) = sumDurAt d ss := by
  intro ss
  induction ss with
  | nil => rfl
  | cons s rest ih =>
    simp only [updateFirstByDate]
    by_cases hs : s.date = d0
    · rw [if_pos hs, sumDurAt_cons, sumDurAt_cons]
      have h1 : ({ s with duration := s.duration + delta } : Session).date = s.date := rfl
      rw [h1]
      have h2 : ¬ (s.date = d) := by rw [hs]; exact fun h => hd h.symm
      rw [if_neg h2, if_neg h2]
    · rw [if_neg hs, sumDurAt_cons, sumDurAt_cons, ih]

lemma updateFirstByDate_sumDurAt_eq (d0 delta : Int) :
    ∀ ss : List Session, ss.any (fun s => s.date = d0) = true →
      sumDurAt d0 (updateFirstByDate ss d0 delta) = sumDurAt d0 ss + delta := by
  intro ss
  induction ss with
  | nil => intro h; simp at h
  | cons s rest ih =>
    intro h
    simp only [updateFirstByDate]
    by_cases hs : s.date = d0
    · rw [if_pos hs, sumDurAt_cons, sumDurAt_cons]
      have h1 : ({ s with duration := s.duration + delta } : Session).date = s.date := rfl
      have h2 : ({ s with duration := s.duration + delta } : Session).duration
          = s.duration + delta := rfl
      rw [h1, h2, if_pos hs, if_pos hs]
      omega
    · have hrest : rest.any (fun s => s.date = d0) = true := by
        simp only [List.any_cons, Bool.or_eq_true] at h
        rcases h with h | h
        · exact absurd (of_decide_eq_true h) hs
        · exact h
      rw [if_neg hs, sumDurAt_cons, sumDurAt_cons, if_neg hs, ih hrest]
      omega

lemma pass2Go_sumDurAt (exam : Exam) (ws lim : Int) (now : Nat)
    (days : List Nat) :
    ∀ (ss : List Session) (r : Int) (u : Int → Int) (d : Int),
      sumDurAt d (pass2Go exam ws lim now days ss r u).1
        = sumDurAt d ss + ((pass2Go exam ws lim now days ss r u).2 d - u d) := by
  induction days with
  | nil => intro ss r u d; simp [pass2Go]
  | cons day rest ih =>
    intro ss r u d
    simp only [pass2Go]
    set cur := ws + (day : Int) with hcur
    by_cases hfree : 0 < lim - u cur
    · rw [if_pos hfree]
      set a := min r (lim - u cur) with ha
      have hstep : ∀ d : Int,
          sumDurAt d (if ss.any (fun s => s.date = cur) then
              updateFirstByDate ss cur a
            else ss ++ [examSession2 exam now day cur a])
            = sumDurAt d ss + (if d = cur then a else 0) := by
        intro d
        by_cases hany : ss.any (fun s => s.date = cur) = true
        · rw [if_pos hany]
          by_cases hd : d = cur
          · subst hd
            rw [updateFirstByDate_sumDurAt_eq _ _ _ hany, if_pos rfl]
          · rw [updateFirstByDate_sumDurAt_ne _ _ _ hd, if_neg hd]
            omega
        · rw [if_neg hany, sumDurAt_append, sumDurAt_cons, sumDurAt_nil]
          have hdate : (examSession2 exam now day cur a).date = cur := rfl
          have hdur : (examSession2 exam now day cur a).duration = a := rfl
          rw [hdate, hdur, if_flip]
          omega
      by_cases hrem : r - a ≤ 0
      · rw [if_pos hrem]
        dsimp only
        rw [hstep d, bump_apply]
        by_cases hd : d = cur
        · rw [if_pos hd, if_pos hd]; omega
        · rw [if_neg hd, if_neg hd]; omega
      · rw [if_neg hrem]
        rw [ih, hstep d, bump_apply]
        by_cases hd : d = cur
        · rw [if_pos hd, if_pos hd]; omega
        · rw [if_neg hd, if_neg hd]; omega
    · rw [if_neg hfree]
      by_cases hrem : r ≤ 0
      · rw [if_pos hrem]; dsimp only; omega
      · rw [if_neg hrem]; exact ih _ _ _ _

lemma scheduleTask_sumDurAt (task : Task) (ws lim : Int) (now : Nat)
    (u : Int → Int) (d : Int) :
    sumDurAt d (scheduleTask task ws lim now u).1
      = (scheduleTask task ws lim now u).2 d - u d :=
  scheduleTaskGo_sumDurAt task ws lim now _ _ u d

lemma distributeExamRevision_sumDurAt (exam : Exam) (ws lim : Int) (now : Nat)
    (u : Int → Int) (d : Int) :
    sumDurAt d (distributeExamRevision exam ws lim now u).1
      = (distributeExamRevision exam ws lim now u).2 d - u d := by
  simp only [distributeExamRevision]
  split_ifs with hpast hleft
  · simp [sumDurAt_nil]
  · rw [pass2Go_sumDurAt, pass1Go_sumDurAt]
    omega
  · rw [pass1Go_sumDurAt]

lemma foldl_taskStep_sumDurAt (st lim : Int) (now : Nat) (l : List Task) :
    ∀ (acc : List Session × (Int → Int)) (d : Int),
      sumDurAt d (l.foldl (taskStep st lim now) acc).1
        = sumDurAt d acc.1 + ((l.foldl (taskStep st lim now) acc).2 d - acc.2 d) := by
  induction l with
  | nil => intro acc d; simp
  | cons t rest ih =>
    intro acc d
    rw [List.foldl_cons]
    rw [ih (taskStep st lim now acc t) d]
    have h1 : (taskStep st lim now acc t).1
        = acc.1 ++ (scheduleTask t st lim now acc.2).1 := rfl
    have h2 : (taskStep st lim now acc t).2
        = (scheduleTask t st lim now acc.2).2 := rfl
    rw [h1, h2, sumDurAt_append, scheduleTask_sumDurAt]
    omega

lemma foldl_examStep_sumDurAt (st lim : Int) (now : Nat) (l : List Exam) :
    ∀ (acc : List Session × (Int → Int)) (d : Int),
      sumDurAt d (l.foldl (examStep st lim now) acc).1
        = sumDurAt d acc.1 + ((l.foldl (examStep st lim now) acc).2 d - acc.2 d) := by
  induction l with
  | nil => intro acc d; simp
  | cons e rest ih =>
    intro acc d
    rw [List.foldl_cons]
    rw [ih (examStep st lim now acc e) d]
    have h1 : (examStep st lim now acc e).1
        = acc.1 ++ (distributeExamRevision e st lim now acc.2).1 := rfl
    have h2 : (examStep st lim now acc e).2
        = (distributeExamRevision e st lim now acc.2).2 := rfl
    rw [h1, h2, sumDurAt_append, distributeExamRevision_sumDurAt]
    omega

/-! ## The full pipeline keeps every day at or below the budget -/

lemma generate_sessions_sumDurAt_le (tasks : List Task) (exams : List Exam)
    (limit st : Int) (now : Nat) (hlim : 0 ≤ limit) (d : Int) :
    sumDurAt d (exams.foldl (examStep st limit now)
      ((sortTasksByDeadline tasks).foldl (taskStep st limit now)
        (([] : List Session), fun _ => 0))).1 ≤ limit := by
  have h1 := foldl_taskStep_sumDurAt st limit now (sortTasksByDeadline tasks)
    (([] : List Session), fun _ => 0) d
  have h2 := foldl_examStep_sumDurAt st limit now exams
    ((sortTasksByDeadline tasks).foldl (taskStep st limit now)
      (([] : List Session), fun _ => 0)) d
  have h3 := foldl_examStep_used_le st limit now exams
    ((sortTasksByDeadline tasks).foldl (taskStep st limit now)
      (([] : List Session), fun _ => 0))
    (fun d => foldl_taskStep_used_le st limit now (sortTasksByDeadline tasks)
      (([] : List Session), fun _ => 0) (fun _ => hlim) d) d
  dsimp only at h1 h2
  rw [sumDurAt_nil] at h1
  omega

/-- C1: for every invocation of `generateWeeklySchedule` — any tasks, any
exams, any window start, and any nonnegative configured daily budget (the
spec has the caller validate the budget into 60–960 before invoking the
core) — every `DailyBucket` of the returned schedule has `totalMinutes` at
most the budget: the task-allocation loop and both exam-distribution passes
only ever commit `min(remaining, free)` minutes to a day with `free > 0`, so
the Scheduler itself can never overfill a day. -/
theorem claim_C1_daily_budget_respected
    (tasks : List Task) (exams : List Exam) (limit startDate : Int) (now : Nat)
    (hlim : 0 ≤ limit) :
    ∀ b ∈ generateWeeklySchedule tasks exams limit startDate now,
      b.totalMinutes ≤ limit := by
  intro b hb
  simp only [generateWeeklySchedule, formatSchedule] at hb
  rcases List.mem_map.1 hb with ⟨i, hi, hbi⟩
  rw [← hbi]
  exact generate_sessions_sumDurAt_le tasks exams limit (startOfWeek startDate)
    now hlim _

/-- Witness for C1: the budget hypothesis holds at a concrete input and the
theorem applies there. -/
theorem claim_C1_daily_budget_respected_witness :
    (0 : Int) ≤ 480 ∧
      ∀ b ∈ generateWeeklySchedule
        [{ id := "t1", name := "Essay", subject := "English", deadline := 6,
           estimatedTime := 500 }] [] 480 4 0,
        b.totalMinutes ≤ 480 :=
  ⟨by norm_num, claim_C1_daily_budget_respected _ _ _ _ _ (by norm_num)⟩

/-! ## Membership: what the produced sessions look like -/

lemma scheduleTaskGo_mem (task : Task) (ws lim : Int) (now : Nat)
    (days : List Nat) :
    ∀ (r : Int) (u : Int → Int) (s : Session),
      s ∈ (scheduleTaskGo task ws lim now days r u).1 →
        ∃ day ∈ days, ∃ dur : Int,
          s = taskSession task now day (ws + (day : Int)) dur := by
  induction days with
  | nil => intro r u s hs; simp [scheduleTaskGo] at hs
  | cons day rest ih =>
    intro r u s hs
    simp only [scheduleTaskGo] at hs
    by_cases hfree : 0 < lim - u (ws + (day : Int))
    · rw [if_pos hfree] at hs
      by_cases hrem : r - min r (lim - u (ws + (day : Int))) ≤ 0
      · rw [if_pos hrem] at hs
        dsimp only at hs
        rcases List.mem_singleton.1 hs with h
        exact ⟨day, List.mem_cons_self day rest, _, h⟩
      · rw [if_neg hrem] at hs
        dsimp only at hs
        rcases List.mem_cons.1 hs with h | h
        · exact ⟨day, List.mem_cons_self day rest, _, h⟩
        · rcases ih _ _ _ h with ⟨day2, hday2, dur, hdur⟩
          exact ⟨day2, List.mem_cons_of_mem day hday2, dur, hdur⟩
    · rw [if_neg hfree] at hs
      by_cases hrem : r ≤ 0
      · rw [if_pos hrem] at hs; simp at hs
      · rw [if_neg hrem] at hs
        rcases ih _ _ _ hs with ⟨day2, hday2, dur, hdur⟩
        exact ⟨day2, List.mem_cons_of_mem day hday2, dur, hdur⟩

lemma pass1Go_mem (exam : Exam) (ws lim ideal : Int) (now : Nat)
    (days : List Nat) :
    ∀ (r : Int) (u : Int → Int) (s : Session),
      s ∈ (pass1Go exam ws lim ideal now days r u).1 →
        ∃ day ∈ days, ∃ dur : Int, 0 < dur ∧
          s = examSession1 exam now day (ws + (day : Int)) dur := by
  induction days with
  | nil => intro r u s hs; simp [pass1Go] at hs
  | cons day rest ih =>
    intro r u s hs
    simp only [pass1Go] at hs
    by_cases hfree : 0 < lim - u (ws + (day : Int))
    · rw [if_pos hfree] at hs
      by_cases hpos : 0 < min r (min (lim - u (ws + (day : Int))) ideal)
      · rw [if_pos hpos] at hs
        by_cases hrem : r - min r (min (lim - u (ws + (day : Int))) ideal) ≤ 0
        · rw [if_pos hrem] at hs
          dsimp only at hs
          rcases List.mem_singleton.1 hs with h
          exact ⟨day, List.mem_cons_self day rest, _, hpos, h⟩
        · rw [if_neg hrem] at hs
          dsimp only at hs
          rcases List.mem_cons.1 hs with h | h
          · exact ⟨day, List.mem_cons_self day rest, _, hpos, h⟩
          · rcases ih _ _ _ h with ⟨day2, hday2, dur, hdurpos, hdur⟩
            exact ⟨day2, List.mem_cons_of_mem day hday2, dur, hdurpos, hdur⟩
      · rw [if_neg hpos] at hs
        by_cases hrem : r ≤ 0
        · rw [if_pos hrem] at hs; simp at hs
        · rw [if_neg hrem] at hs
          rcases ih _ _ _ hs with ⟨day2, hday2, dur, hdurpos, hdur⟩
          exact ⟨day2, List.mem_cons_of_mem day hday2, dur, hdurpos, hdur⟩
    · rw [if_neg hfree] at hs
      by_cases hrem : r ≤ 0
      · rw [if_pos hrem] at hs; simp at hs
      · rw [if_neg hrem] at hs
        rcases ih _ _ _ hs with ⟨day2, hday2, dur, hdurpos, hdur⟩
        exact ⟨day2, List.mem_cons_of_mem day hday2, dur, hdurpos, hdur⟩

lemma updateFirstByDate_mem (p : Session → Prop) (d0 delta : Int)
    (hdur : ∀ s, p s → p { s with duration := s.duration + delta }) :
    ∀ ss : List Session, (∀ s ∈ ss, p s) →
      ∀ s ∈ updateFirstByDate ss d0 delta, p s := by
  intro ss
  induction ss with
  | nil => intro _ s hs; simp [updateFirstByDate] at hs
  | cons s0 rest ih =>
    intro hss s hs
    simp only [updateFirstByDate] at hs
    by_cases h0 : s0.date = d0
    · rw [if_pos h0] at hs
      rcases List.mem_cons.1 hs with h | h
      · exact h ▸ hdur s0 (hss s0 (List.mem_cons_self _ _))
      · exact hss s (List.mem_cons_of_mem _ h)
    · rw [if_neg h0] at hs
      rcases List.mem_cons.1 hs with h | h
      · exact h ▸ hss s0 (List.mem_cons_self _ _)
      · exact ih (fun x hx => hss x (List.mem_cons_of_mem _ hx)) s h

lemma pass2Go_mem (exam : Exam) (ws lim : Int) (now : Nat)
    (p : Session → Prop)
    (hdur : ∀ s delta, p s → p { s with duration := s.duration + delta }) :
    ∀ days : List Nat,
      (∀ day ∈ days, ∀ dur : Int, p (examSession2 exam now day (ws + (day : Int)) dur)) →
      ∀ (ss : List Session) (r : Int) (u : Int → Int),
        (∀ s ∈ ss, p s) → ∀ s ∈ (pass2Go exam ws lim now days ss r u).1, p s := by
  intro days
  induction days with
  | nil => intro _ ss r u hss s hs; simpa [pass2Go] using hss s (by simpa [pass2Go] using hs)
  | cons day rest ih =>
    intro hnew ss r u hss s hs
    simp only [pass2Go] at hs
    by_cases hfree : 0 < lim - u (ws + (day : Int))
    · rw [if_pos hfree] at hs
      have hss1 : ∀ s ∈ (if ss.any (fun s => s.date = ws + (day : Int)) then
          updateFirstByDate ss (ws + (day : Int)) (min r (lim - u (ws + (day : Int))))
        else ss ++ [examSession2 exam now day (ws + (day : Int))
            (min r (lim - u (ws + (day : Int))))]), p s := by
        by_cases hany : ss.any (fun s => s.date = ws + (day : Int)) = true
        · rw [if_pos hany]
          exact updateFirstByDate_mem p _ _ (fun s => hdur s _) ss hss
        · rw [if_neg hany]
          intro s hs
          rcases List.mem_append.1 hs with h | h
          · exact hss s h
          · rcases List.mem_singleton.1 h with h
            exact h ▸ hnew day (List.mem_cons_self _ _) _
      by_cases hrem : r - min r (lim - u (ws + (day : Int))) ≤ 0
      · rw [if_pos hrem] at hs
        exact hss1 s hs
      · rw [if_neg hrem] at hs
        exact ih (fun day2 h2 => hnew day2 (List.mem_cons_of_mem _ h2)) _ _ _ hss1 s hs
    · rw [if_neg hfree] at hs
      by_cases hrem : r ≤ 0
      · rw [if_pos hrem] at hs
        exact hss s hs
      · rw [if_neg hrem] at hs
        exact ih (fun day2 h2 => hnew day2 (List.mem_cons_of_mem _ h2)) _ _ _ hss s hs

/-- Every session produced by `distributeExamRevision` carries the exam's
identity, an empty `taskId`, type `exam_revision`, status `planned`, and a
date within the 7-day window. -/
lemma distributeExamRevision_mem (exam : Exam) (ws lim : Int) (now : Nat)
    (u : Int → Int) :
    ∀ s ∈ (distributeExamRevision exam ws lim now u).1,
      s.taskId = none ∧ s.examId = some exam.id ∧ s.type = .examRevision ∧
        s.status = .planned ∧ ∃ i : Nat, i < 7 ∧ s.date = ws + (i : Int) := by
  intro s hs
  have hdays : ∀ day ∈ List.range (min (max (exam.date - ws) 3) 7).toNat, day < 7 := by
    intro day hd
    have := List.mem_range.1 hd
    omega
  simp only [distributeExamRevision] at hs
  split_ifs at hs with hpast hleft
  · simp at hs
  · set p : Session → Prop := fun s =>
      s.taskId = none ∧ s.examId = some exam.id ∧ s.type = .examRevision ∧
        s.status = .planned ∧ ∃ i : Nat, i < 7 ∧ s.date = ws + (i : Int) with hp
    have hdurp : ∀ s delta, p s → p { s with duration := s.duration + delta } := by
      intro s delta hps
      exact hps
    have h1 : ∀ x ∈ (pass1Go exam ws lim
        (jsCeilDiv (jsOr exam.estimatedTime 240) (min (max (exam.date - ws) 3) 7)) now
        (List.range (min (max (exam.date - ws) 3) 7).toNat)
        (jsOr exam.estimatedTime 240) u).1, p x := by
      intro x hx
      rcases pass1Go_mem exam ws lim _ now _ _ _ _ hx with ⟨day, hday, dur, _, hdur⟩
      subst hdur
      exact ⟨rfl, rfl, rfl, rfl, day, hdays day hday, rfl⟩
    refine pass2Go_mem exam ws lim now p hdurp _ ?_ _ _ _ h1 s hs
    intro day hday dur
    exact ⟨rfl, rfl, rfl, rfl, day, hdays day hday, rfl⟩
  · rcases pass1Go_mem exam ws lim _ now _ _ _ _ hs with ⟨day, hday, dur, _, hdur⟩
    subst hdur
    exact ⟨rfl, rfl, rfl, rfl, day, hdays day hday, rfl⟩

lemma foldl_taskStep_mem (st lim : Int) (now : Nat) (l : List Task) :
    ∀ (acc : List Session × (Int → Int)) (s : Session),
      s ∈ (l.foldl (taskStep st lim now) acc).1 →
        s ∈ acc.1 ∨ ∃ t ∈ l, ∃ u : Int → Int, s ∈ (scheduleTask t st lim now u).1 := by
  induction l with
  | nil => intro acc s hs; exact Or.inl hs
  | cons t rest ih =>
    intro acc s hs
    rw [List.foldl_cons] at hs
    rcases ih (taskStep st lim now acc t) s hs with h | ⟨t2, ht2, u2, hu2⟩
    · rcases List.mem_append.1 h with h | h
      · exact Or.inl h
      · exact Or.inr ⟨t, List.mem_cons_self _ _, acc.2, h⟩
    · exact Or.inr ⟨t2, List.mem_cons_of_mem _ ht2, u2, hu2⟩

lemma foldl_examStep_mem (st lim : Int) (now : Nat) (l : List Exam) :
    ∀ (acc : List Session × (Int → Int)) (s : Session),
      s ∈ (l.foldl (examStep st lim now) acc).1 →
        s ∈ acc.1 ∨ ∃ e ∈ l, ∃ u : Int → Int,
          s ∈ (distributeExamRevision e st lim now u).1 := by
  induction l with
  | nil => intro acc s hs; exact Or.inl hs
  | cons e rest ih =>
    intro acc s hs
    rw [List.foldl_cons] at hs
    rcases ih (examStep st lim now acc e) s hs with h | ⟨e2, he2, u2, hu2⟩
    · rcases List.mem_append.1 h with h | h
      · exact Or.inl h
      · exact Or.inr ⟨e, List.mem_cons_self _ _, acc.2, h⟩
    · exact Or.inr ⟨e2, List.mem_cons_of_mem _ he2, u2, hu2⟩

lemma formatSchedule_eq (ss : List Session) (st : Int) :
    formatSchedule ss st = (List.range 7).map (fun (i : Nat) =>
      { date := st + (i : Int)
        sessions := ss.filter (fun s => s.date = st + (i : Int))
        totalMinutes := sumDurAt (st + (i : Int)) ss }) := rfl

lemma mem_allSessions_formatSchedule (ss : List Session) (st : Int) (s : Session) :
    s ∈ allSessions (formatSchedule ss st) ↔
      s ∈ ss ∧ ∃ i : Nat, i < 7 ∧ s.date = st + (i : Int) := by
  have hrepr : allSessions (formatSchedule ss st)
      = ((List.range 7).map
          (fun (i : Nat) => ss.filter (fun s => s.date = st + (i : Int)))).flatten := by
    rw [allSessions, formatSchedule_eq, List.map_map]
    rfl
  rw [hrepr]
  constructor
  · intro hs
    rcases List.mem_flatten.1 hs with ⟨l, hl, hsl⟩
    rcases List.mem_map.1 hl with ⟨i, hi, rfl⟩
    have h := List.mem_filter.1 hsl
    exact ⟨h.1, i, List.mem_range.1 hi, of_decide_eq_true h.2⟩
  · rintro ⟨hss, i, hi, hdate⟩
    exact List.mem_flatten.2 ⟨ss.filter (fun s => s.date = st + (i : Int)),
      List.mem_map.2 ⟨i, List.mem_range.2 hi, rfl⟩,
      List.mem_filter.2 ⟨hss, decide_eq_true hdate⟩⟩

/-! ## Sorting and positivity facts -/

lemma sortTasksByDeadline_perm (tasks : List Task) :
    List.Perm (sortTasksByDeadline tasks) tasks :=
  List.perm_insertionSort _ tasks

lemma mem_sortTasksByDeadline {t : Task} {tasks : List Task} :
    t ∈ sortTasksByDeadline tasks ↔ t ∈ tasks :=
  (sortTasksByDeadline_perm tasks).mem_iff

lemma generateWeeklySchedule_eq (tasks : List Task) (exams : List Exam)
    (limit startDate : Int) (now : Nat) :
    generateWeeklySchedule tasks exams limit startDate now
      = formatSchedule
          (exams.foldl (examStep (startOfWeek startDate) limit now)
            ((sortTasksByDeadline tasks).foldl
              (taskStep (startOfWeek startDate) limit now)
              (([] : List Session), fun _ => 0))).1
          (startOfWeek startDate) := rfl

lemma scheduleTaskGo_sumDur_le (task : Task) (ws lim : Int) (now : Nat)
    (days : List Nat) :
    ∀ (r : Int) (u : Int → Int), 0 ≤ r →
      sumDur (scheduleTaskGo task ws lim now days r u).1 ≤ r := by
  induction days with
  | nil => intro r u hr; simp [scheduleTaskGo, sumDur_nil, hr]
  | cons day rest ih =>
    intro r u hr
    simp only [scheduleTaskGo]
    by_cases hfree : 0 < lim - u (ws + (day : Int))
    · rw [if_pos hfree]
      set a := min r (lim - u (ws + (day : Int))) with ha
      have haler : a ≤ r := min_le_left _ _
      by_cases hrem : r - a ≤ 0
      · rw [if_pos hrem]
        dsimp only
        rw [sumDur_cons, sumDur_nil]
        have : (taskSession task now day (ws + (day : Int)) a).duration = a := rfl
        rw [this]
        omega
      · rw [if_neg hrem]
        dsimp only
        rw [sumDur_cons]
        have : (taskSession task now day (ws + (day : Int)) a).duration = a := rfl
        rw [this]
        have hrec := ih (r - a) (bump u (ws + (day : Int)) a) (by omega)
        omega
    · rw [if_neg hfree]
      by_cases hrem : r ≤ 0
      · rw [if_pos hrem]; dsimp only; rw [sumDur_nil]; omega
      · rw [if_neg hrem]; exact ih _ _ hr

lemma scheduleTaskGo_dur_pos (task : Task) (ws lim : Int) (now : Nat)
    (days : List Nat) :
    ∀ (r : Int) (u : Int → Int), 0 < r →
      ∀ s ∈ (scheduleTaskGo task ws lim now days r u).1, 0 < s.duration := by
  induction days with
  | nil => intro r u hr s hs; simp [scheduleTaskGo] at hs
  | cons day rest ih =>
    intro r u hr s hs
    simp only [scheduleTaskGo] at hs
    by_cases hfree : 0 < lim - u (ws + (day : Int))
    · rw [if_pos hfree] at hs
      set a := min r (lim - u (ws + (day : Int))) with ha
      have hapos : 0 < a := lt_min hr hfree
      by_cases hrem : r - a ≤ 0
      · rw [if_pos hrem] at hs
        dsimp only at hs
        rcases List.mem_singleton.1 hs with h
        subst h
        exact hapos
      · rw [if_neg hrem] at hs
        dsimp only at hs
        rcases List.mem_cons.1 hs with h | h
        · subst h; exact hapos
        · exact ih _ _ (by omega) s h
    · rw [if_neg hfree] at hs
      by_cases hrem : r ≤ 0
      · rw [if_pos hrem] at hs; simp at hs
      · rw [if_neg hrem] at hs
        exact ih _ _ hr s hs

lemma pass2Go_dur_pos (exam : Exam) (ws lim : Int) (now : Nat)
    (days : List Nat) :
    ∀ (ss : List Session) (r : Int) (u : Int → Int), 0 < r →
      (∀ s ∈ ss, 0 < s.duration) →
      ∀ s ∈ (pass2Go exam ws lim now days ss r u).1, 0 < s.duration := by
  induction days with
  | nil => intro ss r u hr hss s hs; exact hss s (by simpa [pass2Go] using hs)
  | cons day rest ih =>
    intro ss r u hr hss s hs
    simp only [pass2Go] at hs
    by_cases hfree : 0 < lim - u (ws + (day : Int))
    · rw [if_pos hfree] at hs
      set a := min r (lim - u (ws + (day : Int))) with ha
      have hapos : 0 < a := lt_min hr hfree
      have hss1 : ∀ s ∈ (if ss.any (fun s => s.date = ws + (day : Int)) then
          updateFirstByDate ss (ws + (day : Int)) a
        else ss ++ [examSession2 exam now day (ws + (day : Int)) a]),
          0 < s.duration := by
        by_cases hany : ss.any (fun s => s.date = ws + (day : Int)) = true
        · rw [if_pos hany]
          refine updateFirstByDate_mem (fun s => 0 < s.duration) _ _ ?_ ss hss
          intro s hsp
          have : ({ s with duration := s.duration + a } : Session).duration
              = s.duration + a := rfl
          rw [this]
          omega
        · rw [if_neg hany]
          intro s hs
          rcases List.mem_append.1 hs with h | h
          · exact hss s h
          · rcases List.mem_singleton.1 h with h
            subst h
            exact hapos
      by_cases hrem : r - a ≤ 0
      · rw [if_pos hrem] at hs
        exact hss1 s hs
      · rw [if_neg hrem] at hs
        exact ih _ _ _ (by omega) hss1 s hs
    · rw [if_neg hfree] at hs
      by_cases hrem : r ≤ 0
      · rw [if_pos hrem] at hs
        exact hss s hs
      · rw [if_neg hrem] at hs
        exact ih _ _ _ hr hss s hs

/-- Every session produced by `distributeExamRevision` has positive duration:
pass 1 has an explicit `timeToAssign > 0` guard and pass 2 only runs with
positive leftover minutes on days with positive free capacity. -/
lemma distributeExamRevision_dur_pos (exam : Exam) (ws lim : Int) (now : Nat)
    (u : Int → Int) :
    ∀ s ∈ (distributeExamRevision exam ws lim now u).1, 0 < s.duration := by
  intro s hs
  simp only [distributeExamRevision] at hs
  split_ifs at hs with hpast hleft
  · simp at hs
  · refine pass2Go_dur_pos exam ws lim now _ _ _ _ hleft ?_ s hs
    intro x hx
    rcases pass1Go_mem exam ws lim _ now _ _ _ _ hx with ⟨day, _, dur, hdpos, hxeq⟩
    subst hxeq
    exact hdpos
  · rcases pass1Go_mem exam ws lim _ now _ _ _ _ hs with ⟨day, _, dur, hdpos, hxeq⟩
    subst hxeq
    exact hdpos

/-- C9: whenever every task has `estimatedTime ≥ 1` and every exam's
`estimatedTime` is absent or at least 1, every session of the generated
weekly schedule has duration at least 1; and — because the task-allocation
loop, unlike exam pass 1, has no `timeToAssign > 0` guard — a task with
`estimatedTime = 0` yields a zero-duration session on the first free day
(the window start, in the concrete instance below). -/
theorem claim_C9_positive_durations :
    (∀ (tasks : List Task) (exams : List Exam) (limit startDate : Int) (now : Nat),
      (∀ t ∈ tasks, 1 ≤ t.estimatedTime) →
      (∀ e ∈ exams, ∀ v : Int, e.estimatedTime = some v → 1 ≤ v) →
      ∀ s ∈ allSessions (generateWeeklySchedule tasks exams limit startDate now),
        1 ≤ s.duration) ∧
    allSessions (generateWeeklySchedule
      [{ id := "t0", name := "Zero", subject := "S", deadline := 10,
         estimatedTime := 0 }] [] 480 4 0)
      = [{ id := "task-t0-0-0", type := .homework, taskId := some "t0",
           examId := none, title := "Zero", subject := "S", date := 4,
           duration := 0, status := .planned }] := by
  constructor
  · intro tasks exams limit startDate now htasks hexams s hs
    rw [generateWeeklySchedule_eq] at hs
    rw [mem_allSessions_formatSchedule] at hs
    rcases hs with ⟨hs, _⟩
    rcases foldl_examStep_mem _ _ _ _ _ _ hs with h | ⟨e, he, u2, hu2⟩
    · rcases foldl_taskStep_mem _ _ _ _ _ _ h with h2 | ⟨t, ht, u2, hu2⟩
      · simp at h2
      · have hest : 1 ≤ t.estimatedTime := htasks t (mem_sortTasksByDeadline.1 ht)
        have hpos := scheduleTaskGo_dur_pos t (startOfWeek startDate) limit now
          (taskDays (t.deadline - startOfWeek startDate)) t.estimatedTime u2
          (by omega) s hu2
        omega
    · have hpos := distributeExamRevision_dur_pos e (startOfWeek startDate) limit
        now u2 s hu2
      omega
  · rfl

/-- Witness for C9: the hypotheses hold at a concrete input and the theorem
applies there. -/
theorem claim_C9_positive_durations_witness :
    (∀ t ∈ [(⟨"t1", "Essay", "English", 6, 500⟩ : Task)], 1 ≤ t.estimatedTime) ∧
    (∀ e ∈ [(⟨"e1", "Math", 9, some 240⟩ : Exam)], ∀ v : Int,
        e.estimatedTime = some v → 1 ≤ v) ∧
    ∀ s ∈ allSessions (generateWeeklySchedule
        [⟨"t1", "Essay", "English", 6, 500⟩] [⟨"e1", "Math", 9, some 240⟩]
        480 4 0),
      1 ≤ s.duration :=
  ⟨by decide,
   by
    intro e he v hv
    simp only [List.mem_singleton] at he
    subst he
    simp only [Option.some.injEq] at hv
    omega,
   claim_C9_positive_durations.1 _ _ _ _ _ (by decide)
     (by
      intro e he v hv
      simp only [List.mem_singleton] at he
      subst he
      simp only [Option.some.injEq] at hv
      omega)⟩

/-! ## Dates of exam-revision sessions are pairwise distinct (C8) -/

lemma pass1Go_dates_nodup (exam : Exam) (ws lim ideal : Int) (now : Nat)
    (days : List Nat) :
    ∀ (r : Int) (u : Int → Int), days.Nodup →
      (((pass1Go exam ws lim ideal now days r u).1).map (fun s => s.date)).Nodup := by
  induction days with
  | nil => intro r u _; simp [pass1Go]
  | cons day rest ih =>
    intro r u hnd
    have hday : day ∉ rest := (List.nodup_cons.1 hnd).1
    have hrest : rest.Nodup := (List.nodup_cons.1 hnd).2
    simp only [pass1Go]
    by_cases hfree : 0 < lim - u (ws + (day : Int))
    · rw [if_pos hfree]
      by_cases hpos : 0 < min r (min (lim - u (ws + (day : Int))) ideal)
      · rw [if_pos hpos]
        by_cases hrem : r - min r (min (lim - u (ws + (day : Int))) ideal) ≤ 0
        · rw [if_pos hrem]
          simp
        · rw [if_neg hrem]
          dsimp only
          rw [List.map_cons, List.nodup_cons]
          constructor
          · intro hmem
            rcases List.mem_map.1 hmem with ⟨s2, hs2, hdate⟩
            rcases pass1Go_mem exam ws lim ideal now rest _ _ s2 hs2 with
              ⟨day2, hday2, dur2, _, hs2eq⟩
            subst hs2eq
            have h1 : (examSession1 exam now day (ws + (day : Int))
                (min r (min (lim - u (ws + (day : Int))) ideal))).date
                = ws + (day : Int) := rfl
            have h2 : (examSession1 exam now day2 (ws + (day2 : Int)) dur2).date
                = ws + (day2 : Int) := rfl
            rw [h1, h2] at hdate
            have : day2 = day := by omega
            exact hday (this ▸ hday2)
          · exact ih _ _ hrest
      · rw [if_neg hpos]
        by_cases hrem : r ≤ 0
        · rw [if_pos hrem]; simp
        · rw [if_neg hrem]; exact ih _ _ hrest
    · rw [if_neg hfree]
      by_cases hrem : r ≤ 0
      · rw [if_pos hrem]; simp
      · rw [if_neg hrem]; exact ih _ _ hrest

lemma updateFirstByDate_dates (d0 delta : Int) :
    ∀ ss : List Session,
      (updateFirstByDate ss d0 delta).map (fun s => s.date)
        = ss.map (fun s => s.date) := by
  intro ss
  induction ss with
  | nil => rfl
  | cons s rest ih =>
    simp only [updateFirstByDate]
    by_cases hs : s.date = d0
    · rw [if_pos hs, List.map_cons, List.map_cons]
    · rw [if_neg hs, List.map_cons, List.map_cons, ih]

lemma pass2Go_dates_nodup (exam : Exam) (ws lim : Int) (now : Nat)
    (days : List Nat) :
    ∀ (ss : List Session) (r : Int) (u : Int → Int),
      ((ss.map (fun s => s.date)).Nodup) →
      (((pass2Go exam ws lim now days ss r u).1).map (fun s => s.date)).Nodup := by
  induction days with
  | nil => intro ss r u h; simpa [pass2Go] using h
  | cons day rest ih =>
    intro ss r u hnd
    simp only [pass2Go]
    by_cases hfree : 0 < lim - u (ws + (day : Int))
    · rw [if_pos hfree]
      have hnd1 : (((if ss.any (fun s => s.date = ws + (day : Int)) then
          updateFirstByDate ss (ws + (day : Int))
            (min r (lim - u (ws + (day : Int))))
        else ss ++ [examSession2 exam now day (ws + (day : Int))
            (min r (lim - u (ws + (day : Int))))])).map (fun s => s.date)).Nodup := by
        by_cases hany : ss.any (fun s => s.date = ws + (day : Int)) = true
        · rw [if_pos hany, updateFirstByDate_dates]
          exact hnd
        · rw [if_neg hany, List.map_append]
          rw [List.nodup_append]
          refine ⟨hnd, List.nodup_singleton _, ?_⟩
          intro x hx hx1
          have h2 : (examSession2 exam now day (ws + (day : Int))
              (min r (lim - u (ws + (day : Int))))).date = ws + (day : Int) := rfl
          simp only [List.map_cons, List.map_nil, h2, List.mem_singleton] at hx1
          subst hx1
          rcases List.mem_map.1 hx with ⟨s2, hs2, hdate⟩
          have : ss.any (fun s => s.date = ws + (day : Int)) = true :=
            List.any_eq_true.2 ⟨s2, hs2, decide_eq_true hdate⟩
          exact hany this
      by_cases hrem : r - min r (lim - u (ws + (day : Int))) ≤ 0
      · rw [if_pos hrem]
        exact hnd1
      · rw [if_neg hrem]
        exact ih _ _ _ hnd1
    · rw [if_neg hfree]
      by_cases hrem : r ≤ 0
      · rw [if_pos hrem]; exact hnd
      · rw [if_neg hrem]; exact ih _ _ _ hnd

/-- C8: for a single exam, `distributeExamRevision` returns at most one
session per calendar date: pass 1 visits pairwise-distinct days, and when
pass 2 reaches a day that already received a session it increases that
session's duration in place instead of appending a duplicate. -/
theorem claim_C8_one_session_per_date (exam : Exam) (ws lim : Int) (now : Nat)
    (u : Int → Int) :
    (((distributeExamRevision exam ws lim now u).1).map
      (fun s => s.date)).Nodup := by
  simp only [distributeExamRevision]
  split_ifs with hpast hleft
  · simp
  · exact pass2Go_dates_nodup exam ws lim now _ _ _ _
      (pass1Go_dates_nodup exam ws lim _ now _ _ _ (List.nodup_range _))
  · exact pass1Go_dates_nodup exam ws lim _ now _ _ _ (List.nodup_range _)

/-- C10: an exam whose `estimatedTime` field is the integer 0 — a falsy
value, not merely an absent field — is treated by `distributeExamRevision`
and by `validateSchedule` exactly like an exam requiring the 240-minute
default, because `exam.estimatedTime || 240` coalesces every falsy value. -/
lemma examSession1_congr (e1 e2 : Exam) (hid : e1.id = e2.id)
    (hsub : e1.subject = e2.subject) (now : Nat) (day : Nat) (d a : Int) :
    examSession1 e1 now day d a = examSession1 e2 now day d a := by
  rw [examSession1, examSession1, hid, hsub]

lemma examSession2_congr (e1 e2 : Exam) (hid : e1.id = e2.id)
    (hsub : e1.subject = e2.subject) (now : Nat) (day : Nat) (d a : Int) :
    examSession2 e1 now day d a = examSession2 e2 now day d a := by
  rw [examSession2, examSession2, hid, hsub]

lemma pass1Go_congr (e1 e2 : Exam) (hid : e1.id = e2.id)
    (hsub : e1.subject = e2.subject) (ws lim ideal : Int) (now : Nat)
    (days : List Nat) :
    ∀ (r : Int) (u : Int → Int),
      pass1Go e1 ws lim ideal now days r u = pass1Go e2 ws lim ideal now days r u := by
  induction days with
  | nil => intro r u; rfl
  | cons day rest ih =>
    intro r u
    simp only [pass1Go]
    simp only [examSession1_congr e1 e2 hid hsub, ih]

lemma pass2Go_congr (e1 e2 : Exam) (hid : e1.id = e2.id)
    (hsub : e1.subject = e2.subject) (ws lim : Int) (now : Nat)
    (days : List Nat) :
    ∀ (ss : List Session) (r : Int) (u : Int → Int),
      pass2Go e1 ws lim now days ss r u = pass2Go e2 ws lim now days ss r u := by
  induction days with
  | nil => intro ss r u; rfl
  | cons day rest ih =>
    intro ss r u
    simp only [pass2Go]
    simp only [examSession2_congr e1 e2 hid hsub, ih]

/-- C10: an exam whose `estimatedTime` field is the integer 0 — a falsy
value, not merely an absent field — is treated by `distributeExamRevision`
and by `validateSchedule` exactly like an exam requiring the 240-minute
default, because `exam.estimatedTime || 240` coalesces every falsy value. -/
theorem claim_C10_falsy_zero_defaults_to_240 (exam : Exam) (ws lim : Int)
    (now : Nat) (u : Int → Int) (tasks : List Task)
    (schedule : List DailyBucket) (h : exam.estimatedTime = some 0) :
    distributeExamRevision exam ws lim now u
      = distributeExamRevision { exam with estimatedTime := some 240 } ws lim now u ∧
    validateSchedule tasks [exam] lim schedule
      = validateSchedule tasks [{ exam with estimatedTime := some 240 }] lim schedule := by
  rcases exam with ⟨eid, esubj, edate, eest⟩
  dsimp only at h
  subst h
  constructor
  · simp only [distributeExamRevision]
    have hjs : jsOr (some 0) 240 = jsOr (some 240) 240 := rfl
    rw [hjs,
      pass1Go_congr ⟨eid, esubj, edate, some 0⟩ ⟨eid, esubj, edate, some 240⟩
        rfl rfl,
      pass2Go_congr ⟨eid, esubj, edate, some 0⟩ ⟨eid, esubj, edate, some 240⟩
        rfl rfl]
  · rfl

/-- Witness for C10: the hypothesis holds at a concrete exam and the theorem
applies there. -/
theorem claim_C10_falsy_zero_defaults_to_240_witness :
    ((⟨"e0", "Physics", 9, some 0⟩ : Exam).estimatedTime = some 0) ∧
    distributeExamRevision ⟨"e0", "Physics", 9, some 0⟩ 4 480 0 (fun _ => 0)
      = distributeExamRevision ⟨"e0", "Physics", 9, some 240⟩ 4 480 0 (fun _ => 0) :=
  ⟨rfl,
   (claim_C10_falsy_zero_defaults_to_240 ⟨"e0", "Physics", 9, some 0⟩ 4 480 0
     (fun _ => 0) [] [] rfl).1⟩

/-! ## No homework session is dated after its task's deadline (C5, C6) -/

lemma taskDays_le {day : Nat} {dUD : Int} (h : day ∈ taskDays dUD) :
    0 ≤ dUD ∧ (day : Int) ≤ min dUD 6 := by
  rw [taskDays] at h
  split_ifs at h with hneg
  · simp at h
  · have hlt := List.mem_range.1 h
    omega

lemma task_id_inj {tasks : List Task} (hnd : (tasks.map Task.id).Nodup)
    {t1 t2 : Task} (h1 : t1 ∈ tasks) (h2 : t2 ∈ tasks) (h : t1.id = t2.id) :
    t1 = t2 :=
  List.inj_on_of_nodup_map hnd h1 h2 h

/-- C5: in a schedule produced by `generateWeeklySchedule`, no session
carrying a task's identity is dated after that task's deadline: the
task-allocation loop only visits candidate days `0 .. min(daysUntilDeadline, 6)`
from the window start. -/
theorem claim_C5_no_session_after_deadline
    (tasks : List Task) (exams : List Exam) (limit startDate : Int) (now : Nat)
    (t : Task) (hnd : (tasks.map Task.id).Nodup) (ht : t ∈ tasks) :
    ∀ s ∈ allSessions (generateWeeklySchedule tasks exams limit startDate now),
      s.taskId = some t.id → s.date ≤ t.deadline := by
  intro s hs hsid
  rw [generateWeeklySchedule_eq, mem_allSessions_formatSchedule] at hs
  rcases hs with ⟨hs, _⟩
  rcases foldl_examStep_mem _ _ _ _ _ _ hs with h | ⟨e, he, u2, hu2⟩
  · rcases foldl_taskStep_mem _ _ _ _ _ _ h with h2 | ⟨t2, ht2, u2, hu2⟩
    · simp at h2
    · rcases scheduleTaskGo_mem t2 (startOfWeek startDate) limit now
        (taskDays (t2.deadline - startOfWeek startDate)) _ _ _ hu2 with
        ⟨day, hday, dur, hseq⟩
      subst hseq
      have hid : t2.id = t.id := by
        have : (taskSession t2 now day (startOfWeek startDate + (day : Int)) dur).taskId
            = some t2.id := rfl
        rw [this] at hsid
        exact Option.some.inj hsid
      have ht2t : t2 = t := task_id_inj hnd (mem_sortTasksByDeadline.1 ht2) ht hid
      subst ht2t
      have hb := taskDays_le hday
      have hdate : (taskSession t2 now day (startOfWeek startDate + (day : Int)) dur).date
          = startOfWeek startDate + (day : Int) := rfl
      rw [hdate]
      omega
  · have hmem := distributeExamRevision_mem e (startOfWeek startDate) limit now u2 s hu2
    rw [hmem.1] at hsid
    exact absurd hsid (by simp)

/-- Witness for C5: the hypotheses hold at a concrete input and the theorem
applies there. -/
theorem claim_C5_no_session_after_deadline_witness :
    (([(⟨"t1", "Essay", "English", 6, 500⟩ : Task)].map Task.id).Nodup) ∧
    ((⟨"t1", "Essay", "English", 6, 500⟩ : Task) ∈
      [(⟨"t1", "Essay", "English", 6, 500⟩ : Task)]) ∧
    ∀ s ∈ allSessions (generateWeeklySchedule
        [⟨"t1", "Essay", "English", 6, 500⟩] [] 480 4 0),
      s.taskId = some "t1" → s.date ≤ 6 :=
  ⟨by decide, by decide,
   claim_C5_no_session_after_deadline
     [⟨"t1", "Essay", "English", 6, 500⟩] [] 480 4 0
     ⟨"t1", "Essay", "English", 6, 500⟩ (by decide) (by decide)⟩

lemma scheduledMinutesForTask_eq_zero (ss : List Session) (tid : String)
    (h : ∀ s ∈ ss, s.taskId ≠ some tid) :
    scheduledMinutesForTask ss tid = 0 := by
  rw [scheduledMinutesForTask]
  have : ss.filter (fun s => s.taskId = some tid) = [] :=
    List.filter_eq_nil_iff.2 (fun s hs => by
      simpa using h s hs)
  rw [this]
  rfl

/-- C6: a task whose deadline precedes the window start receives zero
sessions, its full `estimatedTime` is reported as `missingMinutes`, and the
`noDeadlineViolations` check is false because a task with zero sessions
fails it. -/
theorem claim_C6_past_deadline_task
    (tasks : List Task) (exams : List Exam) (limit startDate : Int) (now : Nat)
    (t : Task) (hnd : (tasks.map Task.id).Nodup) (ht : t ∈ tasks)
    (hpast : t.deadline < startOfWeek startDate)
    (hest : 1 ≤ t.estimatedTime) :
    (∀ s ∈ allSessions (generateWeeklySchedule tasks exams limit startDate now),
        s.taskId ≠ some t.id) ∧
    (⟨t.id, t.name, .homework, t.estimatedTime⟩ : ShortfallItem)
        ∈ (validateSchedule tasks exams limit
            (generateWeeklySchedule tasks exams limit startDate now)).unscheduledItems ∧
    (validateSchedule tasks exams limit
        (generateWeeklySchedule tasks exams limit startDate now)).details.noDeadlineViolations
      = false := by
  have hnone : ∀ s ∈ allSessions (generateWeeklySchedule tasks exams limit startDate now),
      s.taskId ≠ some t.id := by
    intro s hs hsid
    rw [generateWeeklySchedule_eq, mem_allSessions_formatSchedule] at hs
    rcases hs with ⟨hs, _⟩
    rcases foldl_examStep_mem _ _ _ _ _ _ hs with h | ⟨e, he, u2, hu2⟩
    · rcases foldl_taskStep_mem _ _ _ _ _ _ h with h2 | ⟨t2, ht2, u2, hu2⟩
      · simp at h2
      · rcases scheduleTaskGo_mem t2 (startOfWeek startDate) limit now
          (taskDays (t2.deadline - startOfWeek startDate)) _ _ _ hu2 with
          ⟨day, hday, dur, hseq⟩
        subst hseq
        have hid : t2.id = t.id := by
          have hh : (taskSession t2 now day (startOfWeek startDate + (day : Int)) dur).taskId
              = some t2.id := rfl
          rw [hh] at hsid
          exact Option.some.inj hsid
        have ht2t : t2 = t := task_id_inj hnd (mem_sortTasksByDeadline.1 ht2) ht hid
        subst ht2t
        have hb := taskDays_le hday
        omega
    · have hmem := distributeExamRevision_mem e (startOfWeek startDate) limit now u2 s hu2
      rw [hmem.1] at hsid
      exact absurd hsid (by simp)
  have hzero : scheduledMinutesForTask
      (allSessions (generateWeeklySchedule tasks exams limit startDate now)) t.id = 0 :=
    scheduledMinutesForTask_eq_zero _ _ hnone
  have hfilter : (allSessions (generateWeeklySchedule tasks exams limit startDate now)).filter
      (fun s => s.taskId = some t.id) = [] :=
    List.filter_eq_nil_iff.2 (fun s hs => by simpa using hnone s hs)
  refine ⟨hnone, ?_, ?_⟩
  · simp only [validateSchedule]
    apply List.mem_append_left
    apply List.mem_filterMap.2
    refine ⟨t, ht, ?_⟩
    rw [hzero, if_pos (by omega)]
    have : t.estimatedTime - 0 = t.estimatedTime := by omega
    rw [this]
  · simp only [validateSchedule]
    by_contra hcon
    rw [Bool.not_eq_false] at hcon
    have hp := List.all_eq_true.1 hcon t ht
    rw [hfilter] at hp
    simp at hp

/-- Witness for C6: the hypotheses hold at a concrete input and the theorem
applies there. -/
theorem claim_C6_past_deadline_task_witness :
    (([(⟨"t1", "Late", "History", 0, 100⟩ : Task)].map Task.id).Nodup) ∧
    ((⟨"t1", "Late", "History", 0, 100⟩ : Task) ∈
      [(⟨"t1", "Late", "History", 0, 100⟩ : Task)]) ∧
    ((⟨"t1", "Late", "History", 0, 100⟩ : Task).deadline < startOfWeek 4) ∧
    (1 ≤ (⟨"t1", "Late", "History", 0, 100⟩ : Task).estimatedTime) ∧
    ((∀ s ∈ allSessions (generateWeeklySchedule
        [⟨"t1", "Late", "History", 0, 100⟩] [] 480 4 0), s.taskId ≠ some "t1") ∧
     (⟨"t1", "Late", .homework, 100⟩ : ShortfallItem)
        ∈ (validateSchedule [⟨"t1", "Late", "History", 0, 100⟩] [] 480
            (generateWeeklySchedule [⟨"t1", "Late", "History", 0, 100⟩] [] 480 4 0)).unscheduledItems ∧
     (validateSchedule [⟨"t1", "Late", "History", 0, 100⟩] [] 480
        (generateWeeklySchedule [⟨"t1", "Late", "History", 0, 100⟩] [] 480 4 0)).details.noDeadlineViolations
      = false) :=
  ⟨by decide, by decide, by decide, by decide,
   claim_C6_past_deadline_task [⟨"t1", "Late", "History", 0, 100⟩] [] 480 4 0
     ⟨"t1", "Late", "History", 0, 100⟩ (by decide) (by decide) (by decide)
     (by decide)⟩

/-! ## The weekly buckets partition the produced sessions (needed to relate
`validateSchedule`, which reads bucketed sessions, to the allocation loops) -/

lemma scheduledMinutesForTask_append (l1 l2 : List Session) (tid : String) :
    scheduledMinutesForTask (l1 ++ l2) tid
      = scheduledMinutesForTask l1 tid + scheduledMinutesForTask l2 tid := by
  simp [scheduledMinutesForTask, List.filter_append]

lemma scheduledMinutesForTask_perm {ss1 ss2 : List Session}
    (h : List.Perm ss1 ss2) (tid : String) :
    scheduledMinutesForTask ss1 tid = scheduledMinutesForTask ss2 tid :=
  List.Perm.sum_eq ((h.filter _).map _)

lemma scheduledMinutesForTask_eq_sumDur (ss : List Session) (tid : String)
    (h : ∀ s ∈ ss, s.taskId = some tid) :
    scheduledMinutesForTask ss tid = sumDur ss := by
  have hf : ss.filter (fun s => s.taskId = some tid) = ss :=
    List.filter_eq_self.2 (fun s hs => decide_eq_true (h s hs))
  rw [scheduledMinutesForTask, hf]
  rfl

lemma flatten_filter_perm :
    ∀ (keys : List Int) (ss : List Session), keys.Nodup →
      (∀ s ∈ ss, s.date ∈ keys) →
      List.Perm ((keys.map (fun d => ss.filter (fun s => s.date = d))).flatten) ss := by
  intro keys
  induction keys with
  | nil =>
    intro ss _ hmem
    cases ss with
    | nil => simp
    | cons s rest => exact absurd (hmem s (List.mem_cons_self _ _)) (List.not_mem_nil _)
  | cons k krest ih =>
    intro ss hnd hmem
    rw [List.map_cons, List.flatten_cons]
    have hnotk : k ∉ krest := (List.nodup_cons.1 hnd).1
    have hrepl : krest.map (fun d => ss.filter (fun s => s.date = d))
        = krest.map (fun d =>
            (ss.filter (fun s => !(decide (s.date = k)))).filter
              (fun s => s.date = d)) := by
      apply List.map_congr_left
      intro d hd
      rw [List.filter_filter]
      apply List.filter_congr
      intro s hsmem
      have hdk : ¬ (d = k) := fun hdk => hnotk (hdk ▸ hd)
      by_cases hsd : s.date = d
      · have hsk : ¬ (s.date = k) := fun hcon => hdk (hsd.symm.trans hcon)
        simp [hsd, hsk, hdk]
      · simp [hsd]
    rw [hrepl]
    have hperm2 := ih (ss.filter (fun s => !(decide (s.date = k))))
      (List.nodup_cons.1 hnd).2
      (by
        intro s hs
        have h1 := List.mem_filter.1 hs
        have h2 := hmem s h1.1
        rcases List.mem_cons.1 h2 with h3 | h3
        · exfalso
          have h4 := h1.2
          simp [h3] at h4
        · exact h3)
    exact (List.Perm.append_left _ hperm2).trans (List.filter_append_perm _ ss)

lemma allSessions_formatSchedule (ss : List Session) (st : Int) :
    allSessions (formatSchedule ss st)
      = ((List.range 7).map
          (fun (i : Nat) => ss.filter (fun s => s.date = st + (i : Int)))).flatten := by
  rw [allSessions, formatSchedule_eq, List.map_map]
  rfl

lemma taskDays_lt7 {day : Nat} {dUD : Int} (h : day ∈ taskDays dUD) : day < 7 := by
  rw [taskDays] at h
  split_ifs at h with hneg
  · simp at h
  · have hlt := List.mem_range.1 h
    omega

lemma generate_sessions_date (tasks : List Task) (exams : List Exam)
    (limit st : Int) (now : Nat) :
    ∀ s ∈ (exams.foldl (examStep st limit now)
        ((sortTasksByDeadline tasks).foldl (taskStep st limit now)
          (([] : List Session), fun _ => 0))).1,
      ∃ i : Nat, i < 7 ∧ s.date = st + (i : Int) := by
  intro s hs
  rcases foldl_examStep_mem _ _ _ _ _ _ hs with h | ⟨e, he, u2, hu2⟩
  · rcases foldl_taskStep_mem _ _ _ _ _ _ h with h2 | ⟨t2, ht2, u2, hu2⟩
    · simp at h2
    · rcases scheduleTaskGo_mem t2 st limit now
        (taskDays (t2.deadline - st)) _ _ _ hu2 with ⟨day, hday, dur, hseq⟩
      subst hseq
      exact ⟨day, taskDays_lt7 hday, rfl⟩
  · exact (distributeExamRevision_mem e st limit now u2 s hu2).2.2.2.2

lemma allSessions_generate_perm (tasks : List Task) (exams : List Exam)
    (limit startDate : Int) (now : Nat) :
    List.Perm
      (allSessions (generateWeeklySchedule tasks exams limit startDate now))
      (exams.foldl (examStep (startOfWeek startDate) limit now)
        ((sortTasksByDeadline tasks).foldl
          (taskStep (startOfWeek startDate) limit now)
          (([] : List Session), fun _ => 0))).1 := by
  rw [generateWeeklySchedule_eq, allSessions_formatSchedule]
  have hmaps : (List.range 7).map
      (fun (i : Nat) =>
        (exams.foldl (examStep (startOfWeek startDate) limit now)
          ((sortTasksByDeadline tasks).foldl
            (taskStep (startOfWeek startDate) limit now)
            (([] : List Session), fun _ => 0))).1.filter
          (fun s => s.date = startOfWeek startDate + (i : Int)))
      = ((List.range 7).map (fun (i : Nat) => startOfWeek startDate + (i : Int))).map
          (fun d =>
            (exams.foldl (examStep (startOfWeek startDate) limit now)
              ((sortTasksByDeadline tasks).foldl
                (taskStep (startOfWeek startDate) limit now)
                (([] : List Session), fun _ => 0))).1.filter
              (fun s => s.date = d)) := by
    rw [List.map_map]
    rfl
  rw [hmaps]
  apply flatten_filter_perm
  · refine List.Nodup.map ?_ (List.nodup_range 7)
    intro a b hab
    dsimp only at hab
    omega
  · intro s hs
    rcases generate_sessions_date tasks exams limit (startOfWeek startDate) now s hs
      with ⟨i, hi, hdate⟩
    exact List.mem_map.2 ⟨i, List.mem_range.2 hi, hdate.symm⟩

/-! ## Per-task scheduled minutes (C3) -/

lemma scheduleTask_taskId (t : Task) (st lim : Int) (now : Nat) (u : Int → Int) :
    ∀ s ∈ (scheduleTask t st lim now u).1, s.taskId = some t.id := by
  intro s hs
  rcases scheduleTaskGo_mem t st lim now _ _ _ _ hs with ⟨day, _, dur, hseq⟩
  subst hseq
  rfl

lemma foldl_taskStep_sMFT_not_mem (st lim : Int) (now : Nat) (l : List Task)
    (tid : String) :
    ∀ acc, (∀ t ∈ l, t.id ≠ tid) →
      scheduledMinutesForTask ((l.foldl (taskStep st lim now) acc).1) tid
        = scheduledMinutesForTask acc.1 tid := by
  induction l with
  | nil => intro acc _; rfl
  | cons t rest ih =>
    intro acc hl
    rw [List.foldl_cons,
      ih (taskStep st lim now acc t) (fun t2 h2 => hl t2 (List.mem_cons_of_mem _ h2))]
    have hchunk : scheduledMinutesForTask (scheduleTask t st lim now acc.2).1 tid = 0 :=
      scheduledMinutesForTask_eq_zero _ _ (by
        intro s hs
        rw [scheduleTask_taskId t st lim now acc.2 s hs]
        intro hcon
        exact hl t (List.mem_cons_self _ _) (Option.some.inj hcon))
    have h1 : (taskStep st lim now acc t).1
        = acc.1 ++ (scheduleTask t st lim now acc.2).1 := rfl
    rw [h1, scheduledMinutesForTask_append, hchunk]
    omega

lemma foldl_examStep_sMFT (st lim : Int) (now : Nat) (l : List Exam)
    (tid : String) :
    ∀ acc, scheduledMinutesForTask ((l.foldl (examStep st lim now) acc).1) tid
      = scheduledMinutesForTask acc.1 tid := by
  induction l with
  | nil => intro acc; rfl
  | cons e rest ih =>
    intro acc
    rw [List.foldl_cons, ih (examStep st lim now acc e)]
    have hchunk : scheduledMinutesForTask
        (distributeExamRevision e st lim now acc.2).1 tid = 0 :=
      scheduledMinutesForTask_eq_zero _ _ (by
        intro s hs
        rw [(distributeExamRevision_mem e st lim now acc.2 s hs).1]
        simp)
    have h1 : (examStep st lim now acc e).1
        = acc.1 ++ (distributeExamRevision e st lim now acc.2).1 := rfl
    rw [h1, scheduledMinutesForTask_append, hchunk]
    omega

lemma foldl_taskStep_sMFT_mem (st lim : Int) (now : Nat) (l : List Task)
    (t : Task) :
    ∀ acc, (l.map Task.id).Nodup → t ∈ l →
      ∃ u : Int → Int,
        scheduledMinutesForTask ((l.foldl (taskStep st lim now) acc).1) t.id
          = scheduledMinutesForTask acc.1 t.id
            + sumDur (scheduleTask t st lim now u).1 := by
  induction l with
  | nil => intro acc _ ht; simp at ht
  | cons t2 rest ih =>
    intro acc hnd ht
    rw [List.map_cons, List.nodup_cons] at hnd
    rw [List.foldl_cons]
    rcases List.mem_cons.1 ht with h | h
    · subst h
      have hrest : ∀ t3 ∈ rest, t3.id ≠ t.id := by
        intro t3 h3 hcon
        exact hnd.1 (hcon ▸ List.mem_map_of_mem Task.id h3)
      refine ⟨acc.2, ?_⟩
      rw [foldl_taskStep_sMFT_not_mem st lim now rest t.id
        (taskStep st lim now acc t) hrest]
      have h1 : (taskStep st lim now acc t).1
          = acc.1 ++ (scheduleTask t st lim now acc.2).1 := rfl
      rw [h1, scheduledMinutesForTask_append,
        scheduledMinutesForTask_eq_sumDur _ _ (scheduleTask_taskId t st lim now acc.2)]
    · have hne : t2.id ≠ t.id := by
        intro hcon
        exact hnd.1 (hcon ▸ List.mem_map_of_mem Task.id h)
      rcases ih (taskStep st lim now acc t2) hnd.2 h with ⟨u, hu⟩
      refine ⟨u, ?_⟩
      rw [hu]
      have h1 : (taskStep st lim now acc t2).1
          = acc.1 ++ (scheduleTask t2 st lim now acc.2).1 := rfl
      have hchunk : scheduledMinutesForTask (scheduleTask t2 st lim now acc.2).1 t.id = 0 :=
        scheduledMinutesForTask_eq_zero _ _ (by
          intro s hs
          rw [scheduleTask_taskId t2 st lim now acc.2 s hs]
          intro hcon
          exact hne (Option.some.inj hcon))
      rw [h1, scheduledMinutesForTask_append, hchunk]
      omega

/-- What `validateSchedule` reports for one task, in terms of that task's
scheduled minutes in the given schedule. -/
lemma validateSchedule_item_task (tasks : List Task) (exams : List Exam)
    (lim : Int) (sched : List DailyBucket) (t : Task)
    (hnd : (tasks.map Task.id).Nodup) (ht : t ∈ tasks) :
    ((∃ item ∈ (validateSchedule tasks exams lim sched).unscheduledItems,
        item.id = t.id ∧ item.type = SessionType.homework)
      ↔ scheduledMinutesForTask (allSessions sched) t.id < t.estimatedTime) ∧
    (∀ item ∈ (validateSchedule tasks exams lim sched).unscheduledItems,
      item.id = t.id → item.type = SessionType.homework →
        item.missingMinutes
          = t.estimatedTime - scheduledMinutesForTask (allSessions sched) t.id) := by
  have hforward : ∀ item ∈ (validateSchedule tasks exams lim sched).unscheduledItems,
      item.id = t.id → item.type = SessionType.homework →
        scheduledMinutesForTask (allSessions sched) t.id < t.estimatedTime ∧
        item.missingMinutes
          = t.estimatedTime - scheduledMinutesForTask (allSessions sched) t.id := by
    intro item hitem hid htype
    simp only [validateSchedule] at hitem
    rcases List.mem_append.1 hitem with h | h
    · rcases List.mem_filterMap.1 h with ⟨t2, ht2, hf⟩
      split_ifs at hf with hcond
      · have heq := Option.some.inj hf
        subst heq
        dsimp only at hid hcond ⊢
        have ht2t : t2 = t := task_id_inj hnd ht2 ht hid
        subst ht2t
        exact ⟨hcond, rfl⟩
    · exfalso
      rcases List.mem_filterMap.1 h with ⟨e, he, hf⟩
      split_ifs at hf with hcond
      · have heq := Option.some.inj hf
        subst heq
        dsimp only at htype
        cases htype
  constructor
  · constructor
    · rintro ⟨item, hitem, hid, htype⟩
      exact (hforward item hitem hid htype).1
    · intro hlt
      refine ⟨⟨t.id, t.name, SessionType.homework,
        t.estimatedTime - scheduledMinutesForTask (allSessions sched) t.id⟩,
        ?_, rfl, rfl⟩
      simp only [validateSchedule]
      apply List.mem_append_left
      apply List.mem_filterMap.2
      exact ⟨t, ht, by rw [if_pos hlt]⟩
  · intro item hitem hid htype
    exact (hforward item hitem hid htype).2

/-- C3: for every task (distinct task identities, nonnegative estimate), the
schedule produced by `generateWeeklySchedule` gives the task at most
`estimatedTime` minutes; `validateSchedule` reports a shortfall item for the
task exactly when the scheduled sum is strictly below `estimatedTime`, and
such an item's `missingMinutes` equals `estimatedTime` minus the scheduled
sum, hence is strictly positive whenever the item is present. -/
theorem claim_C3_scheduled_le_estimate_and_shortfall
    (tasks : List Task) (exams : List Exam) (limit startDate : Int) (now : Nat)
    (t : Task) (hnd : (tasks.map Task.id).Nodup) (ht : t ∈ tasks)
    (hest : 0 ≤ t.estimatedTime) :
    scheduledMinutesForTask
        (allSessions (generateWeeklySchedule tasks exams limit startDate now)) t.id
      ≤ t.estimatedTime ∧
    ((∃ item ∈ (validateSchedule tasks exams limit
          (generateWeeklySchedule tasks exams limit startDate now)).unscheduledItems,
        item.id = t.id ∧ item.type = SessionType.homework)
      ↔ scheduledMinutesForTask
          (allSessions (generateWeeklySchedule tasks exams limit startDate now)) t.id
          < t.estimatedTime) ∧
    (∀ item ∈ (validateSchedule tasks exams limit
          (generateWeeklySchedule tasks exams limit startDate now)).unscheduledItems,
      item.id = t.id → item.type = SessionType.homework →
        item.missingMinutes
          = t.estimatedTime - scheduledMinutesForTask
              (allSessions (generateWeeklySchedule tasks exams limit startDate now)) t.id
        ∧ 0 < item.missingMinutes) := by
  have hperm := allSessions_generate_perm tasks exams limit startDate now
  have hbound : scheduledMinutesForTask
      (allSessions (generateWeeklySchedule tasks exams limit startDate now)) t.id
      ≤ t.estimatedTime := by
    rw [scheduledMinutesForTask_perm hperm t.id,
      foldl_examStep_sMFT (startOfWeek startDate) limit now exams t.id]
    have hndsort : ((sortTasksByDeadline tasks).map Task.id).Nodup :=
      (((sortTasksByDeadline_perm tasks).map Task.id).nodup_iff).2 hnd
    rcases foldl_taskStep_sMFT_mem (startOfWeek startDate) limit now
      (sortTasksByDeadline tasks) t (([] : List Session), fun _ => 0) hndsort
      (mem_sortTasksByDeadline.2 ht) with ⟨u, hu⟩
    rw [hu]
    have hz : scheduledMinutesForTask
        ((([] : List Session), fun _ : Int => (0 : Int)).1) t.id = 0 := rfl
    rw [hz]
    have hle : sumDur (scheduleTask t (startOfWeek startDate) limit now u).1
        ≤ t.estimatedTime :=
      scheduleTaskGo_sumDur_le t (startOfWeek startDate) limit now
        (taskDays (t.deadline - startOfWeek startDate)) t.estimatedTime u hest
    omega
  have hitems := validateSchedule_item_task tasks exams limit
    (generateWeeklySchedule tasks exams limit startDate now) t hnd ht
  refine ⟨hbound, hitems.1, ?_⟩
  intro item hitem hid htype
  have hmiss := hitems.2 item hitem hid htype
  have hlt := hitems.1.1 ⟨item, hitem, hid, htype⟩
  exact ⟨hmiss, by omega⟩

/-- Witness for C3: the hypotheses hold at a concrete input and the theorem
applies there. -/
theorem claim_C3_scheduled_le_estimate_and_shortfall_witness :
    (([(⟨"t1", "Essay", "English", 10, 4000⟩ : Task)].map Task.id).Nodup) ∧
    ((⟨"t1", "Essay", "English", 10, 4000⟩ : Task)
      ∈ [(⟨"t1", "Essay", "English", 10, 4000⟩ : Task)]) ∧
    ((0 : Int) ≤ 4000) ∧
    (scheduledMinutesForTask
        (allSessions (generateWeeklySchedule
          [⟨"t1", "Essay", "English", 10, 4000⟩] [] 480 4 0)) "t1" ≤ 4000 ∧
      ((∃ item ∈ (validateSchedule [⟨"t1", "Essay", "English", 10, 4000⟩] [] 480
            (generateWeeklySchedule [⟨"t1", "Essay", "English", 10, 4000⟩] [] 480 4 0)).unscheduledItems,
          item.id = "t1" ∧ item.type = SessionType.homework)
        ↔ scheduledMinutesForTask
            (allSessions (generateWeeklySchedule
              [⟨"t1", "Essay", "English", 10, 4000⟩] [] 480 4 0)) "t1" < 4000) ∧
      (∀ item ∈ (validateSchedule [⟨"t1", "Essay", "English", 10, 4000⟩] [] 480
            (generateWeeklySchedule [⟨"t1", "Essay", "English", 10, 4000⟩] [] 480 4 0)).unscheduledItems,
        item.id = "t1" → item.type = SessionType.homework →
          item.missingMinutes
            = 4000 - scheduledMinutesForTask
                (allSessions (generateWeeklySchedule
                  [⟨"t1", "Essay", "English", 10, 4000⟩] [] 480 4 0)) "t1"
          ∧ 0 < item.missingMinutes)) :=
  ⟨by decide, by decide, by norm_num,
   claim_C3_scheduled_le_estimate_and_shortfall
     [⟨"t1", "Essay", "English", 10, 4000⟩] [] 480 4 0
     ⟨"t1", "Essay", "English", 10, 4000⟩ (by decide) (by decide) (by norm_num)⟩

/-! ## Rescheduling a missed session (C7) -/

lemma rescheduleGo_mem (missed : Session) (cd lim : Int) (now : Nat)
    (days : List Nat) :
    ∀ (r : Int) (u : Int → Int) (s : Session),
      s ∈ rescheduleGo missed cd lim now days r u →
        ∃ day ∈ days, ∃ dur : Int,
          s = rescheduledSession missed now day (cd + (day : Int)) dur := by
  induction days with
  | nil => intro r u s hs; simp [rescheduleGo] at hs
  | cons day rest ih =>
    intro r u s hs
    simp only [rescheduleGo] at hs
    by_cases hfree : 0 < lim - u (cd + (day : Int))
    · rw [if_pos hfree] at hs
      by_cases hrem : r - min r (lim - u (cd + (day : Int))) ≤ 0
      · rw [if_pos hrem] at hs
        rcases List.mem_singleton.1 hs with h
        exact ⟨day, List.mem_cons_self day rest, _, h⟩
      · rw [if_neg hrem] at hs
        rcases List.mem_cons.1 hs with h | h
        · exact ⟨day, List.mem_cons_self day rest, _, h⟩
        · rcases ih _ _ _ h with ⟨day2, hday2, dur, hdur⟩
          exact ⟨day2, List.mem_cons_of_mem day hday2, dur, hdur⟩
    · rw [if_neg hfree] at hs
      by_cases hrem : r ≤ 0
      · rw [if_pos hrem] at hs; simp at hs
      · rw [if_neg hrem] at hs
        rcases ih _ _ _ hs with ⟨day2, hday2, dur, hdur⟩
        exact ⟨day2, List.mem_cons_of_mem day hday2, dur, hdur⟩

lemma rescheduleGo_sum (missed : Session) (cd lim : Int) (now : Nat) :
    ∀ (days : List Nat) (r : Int) (u : Int → Int), days.Nodup → 0 ≤ r →
      r ≤ (days.map (fun (day : Nat) => max 0 (lim - u (cd + (day : Int))))).sum →
      sumDur (rescheduleGo missed cd lim now days r u) = r := by
  intro days
  induction days with
  | nil =>
    intro r u _ hr hcap
    simp only [List.map_nil, List.sum_nil] at hcap
    simp only [rescheduleGo, sumDur_nil]
    omega
  | cons day rest ih =>
    intro r u hnd hr hcap
    have hday : day ∉ rest := (List.nodup_cons.1 hnd).1
    have hrest : rest.Nodup := (List.nodup_cons.1 hnd).2
    rw [List.map_cons, List.sum_cons] at hcap
    simp only [rescheduleGo]
    by_cases hfree : 0 < lim - u (cd + (day : Int))
    · rw [if_pos hfree]
      set a := min r (lim - u (cd + (day : Int))) with ha
      by_cases hrem : r - a ≤ 0
      · rw [if_pos hrem]
        rw [sumDur_cons, sumDur_nil]
        have hd : (rescheduledSession missed now day (cd + (day : Int)) a).duration
            = a := rfl
        rw [hd]
        omega
      · rw [if_neg hrem]
        rw [sumDur_cons]
        have hd : (rescheduledSession missed now day (cd + (day : Int)) a).duration
            = a := rfl
        rw [hd]
        have hmapeq : rest.map (fun (d : Nat) =>
              max 0 (lim - bump u (cd + (day : Int)) a (cd + (d : Int))))
            = rest.map (fun (d : Nat) => max 0 (lim - u (cd + (d : Int)))) := by
          apply List.map_congr_left
          intro d hd2
          have hne : ¬ ((cd + (d : Int)) = cd + (day : Int)) := by
            intro hcon
            have : d = day := by omega
            exact hday (this ▸ hd2)
          rw [bump_apply, if_neg hne]
        have hafree : a = lim - u (cd + (day : Int)) := by omega
        have hrec := ih (r - a) (bump u (cd + (day : Int)) a) hrest (by omega)
          (by rw [hmapeq]; omega)
        rw [hrec]
        omega
    · rw [if_neg hfree]
      by_cases hrem : r ≤ 0
      · rw [if_pos hrem]
        rw [sumDur_nil]
        omega
      · rw [if_neg hrem]
        exact ih r u hrest hr (by omega)

/-- C7: when a missed session's duration fits in the free capacity (budget
minus the summed durations of all existing sessions, regardless of status)
of the three days strictly after `currentDate` (the missed session's date,
as passed by every caller), the returned sessions all have status
`rescheduled`, are dated within the next three days, and their durations sum
to exactly the missed duration; in particular a 90-minute session missed on
day 10 with 450/480 minutes committed on day 11 and day 12 empty is split
into 30 minutes on day 11 and 60 minutes on day 12. -/
theorem claim_C7_reschedule_exact_split :
    (∀ (missed : Session) (currentDate lim : Int) (now : Nat)
        (existing : List Session),
      0 ≤ missed.duration →
      missed.duration ≤ (([1, 2, 3] : List Nat).map (fun (day : Nat) =>
        max 0 (lim - calculateSessionTimeUsed existing
          (currentDate + (day : Int))))).sum →
      sumDur (rescheduleMissedSession missed currentDate lim now existing)
          = missed.duration ∧
      ∀ s ∈ rescheduleMissedSession missed currentDate lim now existing,
        s.status = SessionStatus.rescheduled ∧
        currentDate + 1 ≤ s.date ∧ s.date ≤ currentDate + 3) ∧
    rescheduleMissedSession
      ⟨"m", .homework, some "t", none, "HW", "Math", 10, 90, .missed⟩ 10 480 7
      [⟨"m", .homework, some "t", none, "HW", "Math", 10, 90, .missed⟩,
       ⟨"b", .homework, some "t2", none, "Other", "Math", 11, 450, .planned⟩]
      = [⟨"m-rescheduled-1-7", .homework, some "t", none, "HW", "Math", 11, 30,
          .rescheduled⟩,
         ⟨"m-rescheduled-2-7", .homework, some "t", none, "HW", "Math", 12, 60,
          .rescheduled⟩] := by
  constructor
  · intro missed currentDate lim now existing hdur hcap
    constructor
    · exact rescheduleGo_sum missed currentDate lim now [1, 2, 3]
        missed.duration (calculateSessionTimeUsed existing) (by decide) hdur hcap
    · intro s hs
      rcases rescheduleGo_mem missed currentDate lim now [1, 2, 3] _ _ s hs with
        ⟨day, hday, dur, hseq⟩
      subst hseq
      have hst : (rescheduledSession missed now day (currentDate + (day : Int)) dur).status
          = SessionStatus.rescheduled := rfl
      have hdt : (rescheduledSession missed now day (currentDate + (day : Int)) dur).date
          = currentDate + (day : Int) := rfl
      simp only [List.mem_cons, List.not_mem_nil, or_false] at hday
      refine ⟨hst, ?_, ?_⟩ <;> rw [hdt] <;>
        rcases hday with rfl | rfl | rfl <;> omega
  · rfl

/-- Witness for C7: the capacity hypothesis holds at the Example-3 input and
the theorem applies there. -/
theorem claim_C7_reschedule_exact_split_witness :
    ((0 : Int) ≤ (⟨"m", .homework, some "t", none, "HW", "Math", 10, 90,
        .missed⟩ : Session).duration) ∧
    ((⟨"m", .homework, some "t", none, "HW", "Math", 10, 90,
        .missed⟩ : Session).duration
      ≤ (([1, 2, 3] : List Nat).map (fun (day : Nat) =>
          max 0 (480 - calculateSessionTimeUsed
            [⟨"m", .homework, some "t", none, "HW", "Math", 10, 90, .missed⟩,
             ⟨"b", .homework, some "t2", none, "Other", "Math", 11, 450, .planned⟩]
            (10 + (day : Int))))).sum) ∧
    sumDur (rescheduleMissedSession
        ⟨"m", .homework, some "t", none, "HW", "Math", 10, 90, .missed⟩ 10 480 7
        [⟨"m", .homework, some "t", none, "HW", "Math", 10, 90, .missed⟩,
         ⟨"b", .homework, some "t2", none, "Other", "Math", 11, 450, .planned⟩])
      = 90 :=
  ⟨by decide, by decide,
   (claim_C7_reschedule_exact_split.1
     ⟨"m", .homework, some "t", none, "HW", "Math", 10, 90, .missed⟩ 10 480 7
     [⟨"m", .homework, some "t", none, "HW", "Math", 10, 90, .missed⟩,
      ⟨"b", .homework, some "t2", none, "Other", "Math", 11, 450, .planned⟩]
     (by decide) (by decide)).1⟩

/-! ## Exam distribution session counts (C4) -/

lemma updateFirstByDate_length (d0 delta : Int) :
    ∀ ss : List Session, (updateFirstByDate ss d0 delta).length = ss.length := by
  intro ss
  induction ss with
  | nil => rfl
  | cons s rest ih =>
    simp only [updateFirstByDate]
    by_cases hs : s.date = d0
    · rw [if_pos hs, List.length_cons, List.length_cons]
    · rw [if_neg hs, List.length_cons, List.length_cons, ih]

lemma pass2Go_length_le (exam : Exam) (ws lim : Int) (now : Nat)
    (days : List Nat) :
    ∀ (ss : List Session) (r : Int) (u : Int → Int),
      ss.length ≤ (pass2Go exam ws lim now days ss r u).1.length := by
  induction days with
  | nil => intro ss r u; simp [pass2Go]
  | cons day rest ih =>
    intro ss r u
    simp only [pass2Go]
    by_cases hfree : 0 < lim - u (ws + (day : Int))
    · rw [if_pos hfree]
      have hss1 : ss.length ≤ (if ss.any (fun s => s.date = ws + (day : Int)) then
          updateFirstByDate ss (ws + (day : Int)) (min r (lim - u (ws + (day : Int))))
        else ss ++ [examSession2 exam now day (ws + (day : Int))
            (min r (lim - u (ws + (day : Int))))]).length := by
        by_cases hany : ss.any (fun s => s.date = ws + (day : Int)) = true
        · rw [if_pos hany, updateFirstByDate_length]
        · rw [if_neg hany, List.length_append]
          simp
      by_cases hrem : r - min r (lim - u (ws + (day : Int))) ≤ 0
      · rw [if_pos hrem]
        exact hss1
      · rw [if_neg hrem]
        exact le_trans hss1 (ih _ _ _)
    · rw [if_neg hfree]
      by_cases hrem : r ≤ 0
      · rw [if_pos hrem]
      · rw [if_neg hrem]
        exact ih _ _ _

lemma pass1Go_three_sessions (exam : Exam) (ws lim ideal : Int) (now : Nat)
    (d0 d1 d2 : Nat) (rest : List Nat) (r : Int) (u : Int → Int)
    (h01 : d0 ≠ d1) (h02 : d0 ≠ d2) (h12 : d1 ≠ d2)
    (hideal : 0 < ideal)
    (hf0 : ideal ≤ lim - u (ws + (d0 : Int)))
    (hf1 : ideal ≤ lim - u (ws + (d1 : Int)))
    (hf2 : ideal ≤ lim - u (ws + (d2 : Int)))
    (hr : 2 * ideal < r) :
    3 ≤ (pass1Go exam ws lim ideal now (d0 :: d1 :: d2 :: rest) r u).1.length := by
  have hb1 : bump u (ws + (d0 : Int)) ideal (ws + (d1 : Int))
      = u (ws + (d1 : Int)) := by
    rw [bump_apply, if_neg]
    omega
  have hb2 : bump u (ws + (d0 : Int)) ideal (ws + (d2 : Int))
      = u (ws + (d2 : Int)) := by
    rw [bump_apply, if_neg]
    omega
  have hb3 : bump (bump u (ws + (d0 : Int)) ideal) (ws + (d1 : Int)) ideal
      (ws + (d2 : Int)) = u (ws + (d2 : Int)) := by
    rw [bump_apply, if_neg, hb2]
    omega
  simp only [pass1Go]
  rw [if_pos (show 0 < lim - u (ws + (d0 : Int)) by omega)]
  rw [show min r (min (lim - u (ws + (d0 : Int))) ideal) = ideal by omega]
  rw [if_pos hideal]
  rw [if_neg (show ¬ (r - ideal ≤ 0) by omega)]
  rw [hb1]
  rw [if_pos (show 0 < lim - u (ws + (d1 : Int)) by omega)]
  rw [show min (r - ideal) (min (lim - u (ws + (d1 : Int))) ideal) = ideal by omega]
  rw [if_pos hideal]
  rw [if_neg (show ¬ (r - ideal - ideal ≤ 0) by omega)]
  rw [hb3]
  rw [if_pos (show 0 < lim - u (ws + (d2 : Int)) by omega)]
  rw [if_pos (show 0 < min (r - ideal - ideal)
    (min (lim - u (ws + (d2 : Int))) ideal) by omega)]
  by_cases hrem2 : r - ideal - ideal
      - min (r - ideal - ideal) (min (lim - u (ws + (d2 : Int))) ideal) ≤ 0
  · rw [if_pos hrem2]
    simp
  · rw [if_neg hrem2]
    simp only [List.length_cons]
    omega

/-- C4 amended: for an exam at least three days away, whenever each of the
first three revision days has free capacity at least the ideal daily share
`ceil(required / daysToUse)` and the required minutes exceed twice that
share, `distributeExamRevision` produces at least three sessions. -/
theorem claim_C4_amended_three_sessions (exam : Exam) (ws lim : Int)
    (now : Nat) (u : Int → Int)
    (hd : 3 ≤ exam.date - ws)
    (hfree : ∀ i : Nat, i < 3 →
      jsCeilDiv (jsOr exam.estimatedTime 240) (min (max (exam.date - ws) 3) 7)
        ≤ lim - u (ws + (i : Int)))
    (hneed : 2 * jsCeilDiv (jsOr exam.estimatedTime 240)
        (min (max (exam.date - ws) 3) 7) < jsOr exam.estimatedTime 240) :
    3 ≤ (distributeExamRevision exam ws lim now u).1.length := by
  simp only [distributeExamRevision]
  rw [if_neg (show ¬ (exam.date - ws < 0) by omega)]
  set n := jsOr exam.estimatedTime 240 with hn
  set dtu := min (max (exam.date - ws) 3) 7 with hdtu
  set ideal := jsCeilDiv n dtu with hideal
  have hdtu37 : 3 ≤ dtu ∧ dtu ≤ 7 := by
    constructor <;> omega
  have hceil : n ≤ dtu * ideal := by
    rw [hideal, jsCeilDiv]
    have h2 := Int.fdiv_add_fmod (-n) dtu
    have h3 : 0 ≤ (-n).fmod dtu := Int.fmod_nonneg' (-n) (by omega)
    have h4 : dtu * ((-n).fdiv dtu) ≤ -n := by omega
    have h5 : dtu * -((-n).fdiv dtu) = -(dtu * ((-n).fdiv dtu)) := by ring
    rw [h5]
    omega
  have hpos : 0 < ideal := by
    by_contra hneg
    push_neg at hneg
    have hprod : (dtu - 3) * ideal ≤ 0 :=
      mul_nonpos_of_nonneg_of_nonpos (by omega) hneg
    nlinarith [hceil, hneed, hprod]
  obtain ⟨k, hk⟩ : ∃ k : Nat, dtu.toNat = 3 + k := ⟨dtu.toNat - 3, by omega⟩
  rw [hk, List.range_add]
  rw [show List.range 3 = [0, 1, 2] from rfl]
  simp only [List.cons_append, List.nil_append]
  have h3sess := pass1Go_three_sessions exam ws lim ideal now 0 1 2
    ((List.range k).map (fun x => 3 + x)) n u
    (by omega) (by omega) (by omega) hpos
    (hfree 0 (by omega)) (hfree 1 (by omega)) (hfree 2 (by omega)) hneed
  by_cases hleft : 0 < (pass1Go exam ws lim ideal now
      (0 :: 1 :: 2 :: (List.range k).map (fun x => 3 + x)) n u).2.2
  · rw [if_pos hleft]
    exact le_trans h3sess (pass2Go_length_le exam ws lim now _ _ _ _)
  · rw [if_neg hleft]
    exact h3sess

/-- Witness for the amended C4: the hypotheses hold for a default 240-minute
exam three days out on an empty tracker, and the theorem applies there. -/
theorem claim_C4_amended_three_sessions_witness :
    ((3 : Int) ≤ (⟨"e1", "Math", 7, none⟩ : Exam).date - 4) ∧
    (∀ i : Nat, i < 3 →
      jsCeilDiv (jsOr (⟨"e1", "Math", 7, none⟩ : Exam).estimatedTime 240)
          (min (max ((⟨"e1", "Math", 7, none⟩ : Exam).date - 4) 3) 7)
        ≤ 480 - (fun _ : Int => (0 : Int)) (4 + (i : Int))) ∧
    (2 * jsCeilDiv (jsOr (⟨"e1", "Math", 7, none⟩ : Exam).estimatedTime 240)
        (min (max ((⟨"e1", "Math", 7, none⟩ : Exam).date - 4) 3) 7)
      < jsOr (⟨"e1", "Math", 7, none⟩ : Exam).estimatedTime 240) ∧
    3 ≤ (distributeExamRevision ⟨"e1", "Math", 7, none⟩ 4 480 0
        (fun _ => 0)).1.length :=
  ⟨by decide, by decide, by decide,
   claim_C4_amended_three_sessions ⟨"e1", "Math", 7, none⟩ 4 480 0 (fun _ => 0)
     (by decide) (by intro i hi; interval_cases i <;> decide) (by decide)⟩

/-- Counterexample to C4 as stated: (i) an exam needing only 2 minutes,
three days before its date, with all three revision days fully free
(aggregate capacity 1440 ≥ 2), receives exactly 2 sessions; (ii) a default
240-minute exam whose revision days have aggregate free capacity 480 ≥ 240,
all of it on the first day, receives exactly 1 session — in both cases the
validator's `examDistribution` requirement of ≥ 3 sessions fails. -/
theorem claim_C4_counterexample :
    ((3 : Int) ≤ (⟨"es", "Chem", 7, some 2⟩ : Exam).date - 4) ∧
    (jsOr (⟨"es", "Chem", 7, some 2⟩ : Exam).estimatedTime 240
      ≤ ((List.range (min (max ((⟨"es", "Chem", 7, some 2⟩ : Exam).date - 4) 3)
            7).toNat).map
          (fun (i : Nat) => max 0 (480 - (fun _ : Int => (0 : Int))
            (4 + (i : Int))))).sum) ∧
    (distributeExamRevision ⟨"es", "Chem", 7, some 2⟩ 4 480 0
        (fun _ => 0)).1.length = 2 ∧
    ((3 : Int) ≤ (⟨"ec", "Bio", 7, some 240⟩ : Exam).date - 4) ∧
    (jsOr (⟨"ec", "Bio", 7, some 240⟩ : Exam).estimatedTime 240
      ≤ ((List.range (min (max ((⟨"ec", "Bio", 7, some 240⟩ : Exam).date - 4) 3)
            7).toNat).map
          (fun (i : Nat) => max 0 (480 -
            (fun d : Int => if d = 5 then 480 else if d = 6 then 480 else (0 : Int))
            (4 + (i : Int))))).sum) ∧
    (distributeExamRevision ⟨"ec", "Bio", 7, some 240⟩ 4 480 0
        (fun d => if d = 5 then 480 else if d = 6 then 480 else 0)).1.length = 1 := by
  decide

/-! ## Determinism up to session identities (C2): the wall-clock value feeds
only the identity strings, so erasing identities makes two runs with
different clocks literally equal. -/

lemma any_date_strip (ss1 ss2 : List Session)
    (h : ss1.map stripId = ss2.map stripId) (d : Int) :
    ss1.any (fun s => s.date = d) = ss2.any (fun s => s.date = d) := by
  have h1 : ss1.any (fun s => s.date = d)
      = (ss1.map stripId).any (fun s => s.date = d) := by
    rw [List.any_map]
    rfl
  have h2 : ss2.any (fun s => s.date = d)
      = (ss2.map stripId).any (fun s => s.date = d) := by
    rw [List.any_map]
    rfl
  rw [h1, h2, h]

lemma updateFirstByDate_strip (d0 delta : Int) :
    ∀ (ss1 ss2 : List Session), ss1.map stripId = ss2.map stripId →
      (updateFirstByDate ss1 d0 delta).map stripId
        = (updateFirstByDate ss2 d0 delta).map stripId := by
  intro ss1
  induction ss1 with
  | nil =>
    intro ss2 h
    cases ss2 with
    | nil => rfl
    | cons s rest => simp at h
  | cons s1 rest1 ih =>
    intro ss2 h
    cases ss2 with
    | nil => simp at h
    | cons s2 rest2 =>
      rw [List.map_cons, List.map_cons] at h
      have hhead : stripId s1 = stripId s2 := (List.cons.injEq _ _ _ _ ▸ h).1
      have htail : rest1.map stripId = rest2.map stripId :=
        (List.cons.injEq _ _ _ _ ▸ h).2
      have hdate : s1.date = s2.date := by
        have : (stripId s1).date = (stripId s2).date := by rw [hhead]
        exact this
      simp only [updateFirstByDate]
      by_cases hs : s1.date = d0
      · rw [if_pos hs, if_pos (hdate ▸ hs), List.map_cons, List.map_cons, htail]
        have hupd : stripId { s1 with duration := s1.duration + delta }
            = stripId { s2 with duration := s2.duration + delta } := by
          have h1 : stripId { s1 with duration := s1.duration + delta }
              = { stripId s1 with duration := (stripId s1).duration + delta } := rfl
          have h2 : stripId { s2 with duration := s2.duration + delta }
              = { stripId s2 with duration := (stripId s2).duration + delta } := rfl
          rw [h1, h2, hhead]
        rw [hupd]
      · rw [if_neg hs, if_neg (hdate ▸ hs), List.map_cons, List.map_cons,
          ih rest2 htail, hhead]

lemma scheduleTaskGo_strip (task : Task) (ws lim : Int) (n1 n2 : Nat)
    (days : List Nat) :
    ∀ (r : Int) (u : Int → Int),
      (scheduleTaskGo task ws lim n1 days r u).1.map stripId
        = (scheduleTaskGo task ws lim n2 days r u).1.map stripId ∧
      (scheduleTaskGo task ws lim n1 days r u).2
        = (scheduleTaskGo task ws lim n2 days r u).2 := by
  induction days with
  | nil => intro r u; exact ⟨rfl, rfl⟩
  | cons day rest ih =>
    intro r u
    simp only [scheduleTaskGo]
    by_cases hfree : 0 < lim - u (ws + (day : Int))
    · rw [if_pos hfree, if_pos hfree]
      by_cases hrem : r - min r (lim - u (ws + (day : Int))) ≤ 0
      · rw [if_pos hrem, if_pos hrem]
        exact ⟨rfl, rfl⟩
      · rw [if_neg hrem, if_neg hrem]
        rcases ih (r - min r (lim - u (ws + (day : Int))))
          (bump u (ws + (day : Int)) (min r (lim - u (ws + (day : Int))))) with
          ⟨ih1, ih2⟩
        constructor
        · dsimp only
          rw [List.map_cons, List.map_cons, ih1]
          rfl
        · exact ih2
    · rw [if_neg hfree, if_neg hfree]
      by_cases hrem : r ≤ 0
      · rw [if_pos hrem, if_pos hrem]; exact ⟨rfl, rfl⟩
      · rw [if_neg hrem, if_neg hrem]; exact ih r u

lemma pass1Go_strip (exam : Exam) (ws lim ideal : Int) (n1 n2 : Nat)
    (days : List Nat) :
    ∀ (r : Int) (u : Int → Int),
      (pass1Go exam ws lim ideal n1 days r u).1.map stripId
        = (pass1Go exam ws lim ideal n2 days r u).1.map stripId ∧
      (pass1Go exam ws lim ideal n1 days r u).2
        = (pass1Go exam ws lim ideal n2 days r u).2 := by
  induction days with
  | nil => intro r u; exact ⟨rfl, rfl⟩
  | cons day rest ih =>
    intro r u
    simp only [pass1Go]
    by_cases hfree : 0 < lim - u (ws + (day : Int))
    · rw [if_pos hfree, if_pos hfree]
      by_cases hpos : 0 < min r (min (lim - u (ws + (day : Int))) ideal)
      · rw [if_pos hpos, if_pos hpos]
        by_cases hrem : r - min r (min (lim - u (ws + (day : Int))) ideal) ≤ 0
        · rw [if_pos hrem, if_pos hrem]
          exact ⟨rfl, rfl⟩
        · rw [if_neg hrem, if_neg hrem]
          rcases ih (r - min r (min (lim - u (ws + (day : Int))) ideal))
            (bump u (ws + (day : Int))
              (min r (min (lim - u (ws + (day : Int))) ideal))) with ⟨ih1, ih2⟩
          constructor
          · dsimp only
            rw [List.map_cons, List.map_cons, ih1]
            rfl
          · dsimp only
            rw [ih2]
      · rw [if_neg hpos, if_neg hpos]
        by_cases hrem : r ≤ 0
        · rw [if_pos hrem, if_pos hrem]; exact ⟨rfl, rfl⟩
        · rw [if_neg hrem, if_neg hrem]; exact ih r u
    · rw [if_neg hfree, if_neg hfree]
      by_cases hrem : r ≤ 0
      · rw [if_pos hrem, if_pos hrem]; exact ⟨rfl, rfl⟩
      · rw [if_neg hrem, if_neg hrem]; exact ih r u

lemma pass2Go_strip (exam : Exam) (ws lim : Int) (n1 n2 : Nat)
    (days : List Nat) :
    ∀ (ss1 ss2 : List Session) (r : Int) (u : Int → Int),
      ss1.map stripId = ss2.map stripId →
      (pass2Go exam ws lim n1 days ss1 r u).1.map stripId
        = (pass2Go exam ws lim n2 days ss2 r u).1.map stripId ∧
      (pass2Go exam ws lim n1 days ss1 r u).2
        = (pass2Go exam ws lim n2 days ss2 r u).2 := by
  induction days with
  | nil => intro ss1 ss2 r u h; exact ⟨h, rfl⟩
  | cons day rest ih =>
    intro ss1 ss2 r u h
    simp only [pass2Go]
    by_cases hfree : 0 < lim - u (ws + (day : Int))
    · rw [if_pos hfree, if_pos hfree]
      have hany := any_date_strip ss1 ss2 h (ws + (day : Int))
      have hss1 : (if ss1.any (fun s => s.date = ws + (day : Int)) then
            updateFirstByDate ss1 (ws + (day : Int))
              (min r (lim - u (ws + (day : Int))))
          else ss1 ++ [examSession2 exam n1 day (ws + (day : Int))
              (min r (lim - u (ws + (day : Int))))]).map stripId
          = (if ss2.any (fun s => s.date = ws + (day : Int)) then
            updateFirstByDate ss2 (ws + (day : Int))
              (min r (lim - u (ws + (day : Int))))
          else ss2 ++ [examSession2 exam n2 day (ws + (day : Int))
              (min r (lim - u (ws + (day : Int))))]).map stripId := by
        by_cases ha : ss1.any (fun s => s.date = ws + (day : Int)) = true
        · rw [if_pos ha, if_pos (hany ▸ ha)]
          exact updateFirstByDate_strip _ _ ss1 ss2 h
        · rw [if_neg ha, if_neg (hany ▸ ha), List.map_append, List.map_append, h]
          rfl
      by_cases hrem : r - min r (lim - u (ws + (day : Int))) ≤ 0
      · rw [if_pos hrem, if_pos hrem]
        exact ⟨hss1, rfl⟩
      · rw [if_neg hrem, if_neg hrem]
        exact ih _ _ _ _ hss1
    · rw [if_neg hfree, if_neg hfree]
      by_cases hrem : r ≤ 0
      · rw [if_pos hrem, if_pos hrem]; exact ⟨h, rfl⟩
      · rw [if_neg hrem, if_neg hrem]; exact ih _ _ _ _ h

lemma scheduleTask_strip (task : Task) (ws lim : Int) (n1 n2 : Nat)
    (u : Int → Int) :
    (scheduleTask task ws lim n1 u).1.map stripId
      = (scheduleTask task ws lim n2 u).1.map stripId ∧
    (scheduleTask task ws lim n1 u).2 = (scheduleTask task ws lim n2 u).2 :=
  scheduleTaskGo_strip task ws lim n1 n2 _ _ u

lemma distributeExamRevision_strip (exam : Exam) (ws lim : Int) (n1 n2 : Nat)
    (u : Int → Int) :
    (distributeExamRevision exam ws lim n1 u).1.map stripId
      = (distributeExamRevision exam ws lim n2 u).1.map stripId ∧
    (distributeExamRevision exam ws lim n1 u).2
      = (distributeExamRevision exam ws lim n2 u).2 := by
  simp only [distributeExamRevision]
  by_cases hpast : exam.date - ws < 0
  · rw [if_pos hpast, if_pos hpast]; exact ⟨rfl, rfl⟩
  · rw [if_neg hpast, if_neg hpast]
    rcases pass1Go_strip exam ws lim
      (jsCeilDiv (jsOr exam.estimatedTime 240) (min (max (exam.date - ws) 3) 7))
      n1 n2 (List.range (min (max (exam.date - ws) 3) 7).toNat)
      (jsOr exam.estimatedTime 240) u with ⟨h1, h2⟩
    have hrem : (pass1Go exam ws lim
        (jsCeilDiv (jsOr exam.estimatedTime 240) (min (max (exam.date - ws) 3) 7))
        n1 (List.range (min (max (exam.date - ws) 3) 7).toNat)
        (jsOr exam.estimatedTime 240) u).2.2
        = (pass1Go exam ws lim
        (jsCeilDiv (jsOr exam.estimatedTime 240) (min (max (exam.date - ws) 3) 7))
        n2 (List.range (min (max (exam.date - ws) 3) 7).toNat)
        (jsOr exam.estimatedTime 240) u).2.2 := by rw [h2]
    have husd : (pass1Go exam ws lim
        (jsCeilDiv (jsOr exam.estimatedTime 240) (min (max (exam.date - ws) 3) 7))
        n1 (List.range (min (max (exam.date - ws) 3) 7).toNat)
        (jsOr exam.estimatedTime 240) u).2.1
        = (pass1Go exam ws lim
        (jsCeilDiv (jsOr exam.estimatedTime 240) (min (max (exam.date - ws) 3) 7))
        n2 (List.range (min (max (exam.date - ws) 3) 7).toNat)
        (jsOr exam.estimatedTime 240) u).2.1 := by rw [h2]
    by_cases hleft : 0 < (pass1Go exam ws lim
        (jsCeilDiv (jsOr exam.estimatedTime 240) (min (max (exam.date - ws) 3) 7))
        n1 (List.range (min (max (exam.date - ws) 3) 7).toNat)
        (jsOr exam.estimatedTime 240) u).2.2
    · rw [if_pos hleft, if_pos (hrem ▸ hleft)]
      rw [← hrem, ← husd]
      exact pass2Go_strip exam ws lim n1 n2 _ _ _ _ _ h1
    · rw [if_neg hleft, if_neg (hrem ▸ hleft)]
      exact ⟨h1, husd⟩

lemma foldl_taskStep_strip (st lim : Int) (n1 n2 : Nat) (l : List Task) :
    ∀ (acc1 acc2 : List Session × (Int → Int)),
      acc1.1.map stripId = acc2.1.map stripId → acc1.2 = acc2.2 →
      ((l.foldl (taskStep st lim n1) acc1).1.map stripId
        = (l.foldl (taskStep st lim n2) acc2).1.map stripId) ∧
      ((l.foldl (taskStep st lim n1) acc1).2
        = (l.foldl (taskStep st lim n2) acc2).2) := by
  induction l with
  | nil => intro acc1 acc2 h1 h2; exact ⟨h1, h2⟩
  | cons t rest ih =>
    intro acc1 acc2 h1 h2
    rw [List.foldl_cons, List.foldl_cons]
    apply ih
    · have e1 : (taskStep st lim n1 acc1 t).1
          = acc1.1 ++ (scheduleTask t st lim n1 acc1.2).1 := rfl
      have e2 : (taskStep st lim n2 acc2 t).1
          = acc2.1 ++ (scheduleTask t st lim n2 acc2.2).1 := rfl
      rw [e1, e2, List.map_append, List.map_append, h1, h2,
        (scheduleTask_strip t st lim n1 n2 acc2.2).1]
    · have e1 : (taskStep st lim n1 acc1 t).2
          = (scheduleTask t st lim n1 acc1.2).2 := rfl
      have e2 : (taskStep st lim n2 acc2 t).2
          = (scheduleTask t st lim n2 acc2.2).2 := rfl
      rw [e1, e2, h2, (scheduleTask_strip t st lim n1 n2 acc2.2).2]

lemma foldl_examStep_strip (st lim : Int) (n1 n2 : Nat) (l : List Exam) :
    ∀ (acc1 acc2 : List Session × (Int → Int)),
      acc1.1.map stripId = acc2.1.map stripId → acc1.2 = acc2.2 →
      ((l.foldl (examStep st lim n1) acc1).1.map stripId
        = (l.foldl (examStep st lim n2) acc2).1.map stripId) ∧
      ((l.foldl (examStep st lim n1) acc1).2
        = (l.foldl (examStep st lim n2) acc2).2) := by
  induction l with
  | nil => intro acc1 acc2 h1 h2; exact ⟨h1, h2⟩
  | cons e rest ih =>
    intro acc1 acc2 h1 h2
    rw [List.foldl_cons, List.foldl_cons]
    apply ih
    · have e1 : (examStep st lim n1 acc1 e).1
          = acc1.1 ++ (distributeExamRevision e st lim n1 acc1.2).1 := rfl
      have e2 : (examStep st lim n2 acc2 e).1
          = acc2.1 ++ (distributeExamRevision e st lim n2 acc2.2).1 := rfl
      rw [e1, e2, List.map_append, List.map_append, h1, h2,
        (distributeExamRevision_strip e st lim n1 n2 acc2.2).1]
    · have e1 : (examStep st lim n1 acc1 e).2
          = (distributeExamRevision e st lim n1 acc1.2).2 := rfl
      have e2 : (examStep st lim n2 acc2 e).2
          = (distributeExamRevision e st lim n2 acc2.2).2 := rfl
      rw [e1, e2, h2, (distributeExamRevision_strip e st lim n1 n2 acc2.2).2]

lemma map_tripleOf_of_strip_eq {ss1 ss2 : List Session}
    (h : ss1.map stripId = ss2.map stripId) :
    ss1.map tripleOf = ss2.map tripleOf := by
  have h1 : ss1.map tripleOf = (ss1.map stripId).map tripleOf := by
    rw [List.map_map]
    rfl
  have h2 : ss2.map tripleOf = (ss2.map stripId).map tripleOf := by
    rw [List.map_map]
    rfl
  rw [h1, h2, h]

lemma filter_date_strip_eq {ss1 ss2 : List Session}
    (h : ss1.map stripId = ss2.map stripId) (d : Int) :
    (ss1.filter (fun s => s.date = d)).map stripId
      = (ss2.filter (fun s => s.date = d)).map stripId := by
  have e1 : (ss1.filter (fun s => s.date = d)).map stripId
      = (ss1.map stripId).filter (fun s => s.date = d) := by
    rw [List.filter_map]
    rfl
  have e2 : (ss2.filter (fun s => s.date = d)).map stripId
      = (ss2.map stripId).filter (fun s => s.date = d) := by
    rw [List.filter_map]
    rfl
  rw [e1, e2, h]

/-- C2: two invocations of `generateWeeklySchedule` with identical tasks,
exams, budget and window start but different wall-clock values produce
identical lists of `(date, sourceId, duration)` triples — in particular
identical multisets — since the clock feeds only the session identity
strings. -/
theorem claim_C2_deterministic_up_to_ids (tasks : List Task)
    (exams : List Exam) (limit startDate : Int) (n1 n2 : Nat) :
    (allSessions (generateWeeklySchedule tasks exams limit startDate n1)).map tripleOf
      = (allSessions (generateWeeklySchedule tasks exams limit startDate n2)).map tripleOf := by
  have hstrip := (foldl_examStep_strip (startOfWeek startDate) limit n1 n2 exams
    ((sortTasksByDeadline tasks).foldl (taskStep (startOfWeek startDate) limit n1)
      (([] : List Session), fun _ => 0))
    ((sortTasksByDeadline tasks).foldl (taskStep (startOfWeek startDate) limit n2)
      (([] : List Session), fun _ => 0))
    (foldl_taskStep_strip (startOfWeek startDate) limit n1 n2
      (sortTasksByDeadline tasks) (([] : List Session), fun _ => 0)
      (([] : List Session), fun _ => 0) rfl rfl).1
    (foldl_taskStep_strip (startOfWeek startDate) limit n1 n2
      (sortTasksByDeadline tasks) (([] : List Session), fun _ => 0)
      (([] : List Session), fun _ => 0) rfl rfl).2).1
  rw [generateWeeklySchedule_eq, generateWeeklySchedule_eq,
    allSessions_formatSchedule, allSessions_formatSchedule,
    List.map_flatten, List.map_flatten, List.map_map, List.map_map]
  apply congrArg List.flatten
  apply List.map_congr_left
  intro i _
  exact map_tripleOf_of_strip_eq (filter_date_strip_eq hstrip _)

end StudyPlanner
